import Mathlib

/-!
Verification development for the `thinning` repository.

The Rust sources `src/main.rs` (Zhang–Suen thinning: window iteration,
post-pass, whole-image driver `thinning_zs`, tiled driver
`thinning_zs_tiled`) and `src/skeleton.rs` (skeleton tracer:
`not_empty`, `merge_impl`, `merge_frags`, `chunk_to_frags`,
`trace_skeleton`) are embedded shallowly.  The image buffer is a
`List Nat` of byte values in row-major order; reads are `List.getD`
with default `0` and in-place writes are `List.set`, which mirrors the
Rust slice accesses on the non-panicking domain.  Loops become folds
over explicit index lists, and the two convergence loops, which Rust
runs until a fixpoint, take an explicit fuel argument and return
`none` on fuel exhaustion.
-/

/-! ## Embedding of `thinning_zs_iteration` (src/main.rs lines 22-86)

The Zhang–Suen marking condition as written in the source: the test
`p1 == 1` is commented out there (the `// BUG!` line), so it is absent
here as well. -/

def zsCond (im : List Nat) (w i j iter : Nat) : Bool :=
  let p2 := im.getD ((i - 1) * w + j) 0 &&& 1
  let p3 := im.getD ((i - 1) * w + j + 1) 0 &&& 1
  let p4 := im.getD (i * w + j + 1) 0 &&& 1
  let p5 := im.getD ((i + 1) * w + j + 1) 0 &&& 1
  let p6 := im.getD ((i + 1) * w + j) 0 &&& 1
  let p7 := im.getD ((i + 1) * w + j - 1) 0 &&& 1
  let p8 := im.getD (i * w + j - 1) 0 &&& 1
  let p9 := im.getD ((i - 1) * w + j - 1) 0 &&& 1
  let a := (if p2 = 0 ∧ p3 = 1 then 1 else 0) + (if p3 = 0 ∧ p4 = 1 then 1 else 0)
    + (if p4 = 0 ∧ p5 = 1 then 1 else 0) + (if p5 = 0 ∧ p6 = 1 then 1 else 0)
    + (if p6 = 0 ∧ p7 = 1 then 1 else 0) + (if p7 = 0 ∧ p8 = 1 then 1 else 0)
    + (if p8 = 0 ∧ p9 = 1 then 1 else 0) + (if p9 = 0 ∧ p2 = 1 then 1 else 0)
  let b := p2 + p3 + p4 + p5 + p6 + p7 + p8 + p9
  let m1 := if iter = 0 then p2 * p4 * p6 else p2 * p4 * p8
  let m2 := if iter = 0 then p4 * p6 * p8 else p2 * p6 * p8
  a = 1 && (2 ≤ b && b ≤ 6) && m1 = 0 && m2 = 0

def zsMarkCell (iter w : Nat) (st : List Nat × Bool) (c : Nat × Nat) :
    List Nat × Bool :=
  if zsCond st.1 w c.1 c.2 iter then
    if st.1.getD (c.1 * w + c.2) 0 &&& 2 = 0 then
      (st.1.set (c.1 * w + c.2) (st.1.getD (c.1 * w + c.2) 0 ||| 2), true)
    else st
  else st

def zsWindowCells (win_x win_y win_w win_h w h : Nat) : List (Nat × Nat) :=
  let min_x := if win_x = 0 then 1 else win_x
  let max_x := if win_x + win_w = w then w - 1 else win_x + win_w
  let min_y := if win_y = 0 then 1 else win_y
  let max_y := if win_y + win_h = h then h - 1 else win_y + win_h
  (List.range' min_y (max_y - min_y)).flatMap fun i =>
    (List.range' min_x (max_x - min_x)).map fun j => (i, j)

def thinning_zs_iteration (im : List Nat)
    (win_x win_y win_w win_h w h iter : Nat) : List Nat × Bool :=
  (zsWindowCells win_x win_y win_w win_h w h).foldl (zsMarkCell iter w) (im, false)

/-! ## Embedding of `thinning_zs_post` (src/main.rs lines 88-106)

Rust negates the marker with a `u8` bitwise complement; since `old` is
already masked to one bit, XOR with 255 gives the same conjunction for
every byte value. -/

def postCell (w : Nat) (im : List Nat) (c : Nat × Nat) : List Nat :=
  let idx := c.1 * w + c.2
  let marker := im.getD idx 0 >>> 1
  let old := im.getD idx 0 &&& 1
  let nw := old &&& (marker ^^^ 255)
  if nw ≠ old then im.set idx nw else im

def postWindowCells (win_x win_y win_w win_h : Nat) : List (Nat × Nat) :=
  (List.range' win_y win_h).flatMap fun i =>
    (List.range' win_x win_w).map fun j => (i, j)

def thinning_zs_post (im : List Nat) (win_x win_y win_w win_h w : Nat) :
    List Nat :=
  (postWindowCells win_x win_y win_w win_h).foldl (postCell w) im

/-! ## Embedding of `thinning_zs` (src/main.rs lines 108-125)

The Rust loop runs until the second sub-iteration reports no change;
the embedding consumes one unit of fuel per outer round and returns
`none` if the fuel runs out. -/

def thinning_zs_loop (w h : Nat) : Nat → List Nat → Option (List Nat)
  | 0, _ => none
  | fuel + 1, im =>
    let r0 := thinning_zs_iteration im 0 0 w h w h 0
    if r0.2 then
      let im1 := thinning_zs_post r0.1 0 0 w h w
      let r1 := thinning_zs_iteration im1 0 0 w h w h 1
      let im2 := thinning_zs_post r1.1 0 0 w h w
      if r1.2 then thinning_zs_loop w h fuel im2 else some im2
    else
      some (thinning_zs_post r0.1 0 0 w h w)

def thinning_zs (im : List Nat) (w h : Nat) : Option (List Nat) :=
  thinning_zs_loop w h (3 * im.length + 1) im

/-! ## Embedding of `thinning_zs_tiled` (src/main.rs lines 127-251)

Tile flags are a `List Nat` (`FLAG_CHANGED = 1`).  A MARK phase folds
`thinning_zs_iteration` over all tiles in row-major order, skipping a
tile when it and its four axis-aligned neighbours are all unchanged;
the skip test reads the partially updated flag list, exactly as the
Rust loop reads the flag vector it is mutating.  A COMMIT phase folds
`thinning_zs_post` over the tiles whose flag is currently set. -/

def tileSkip (flags : List Nat) (ntx nty ti_x ti_y : Nat) : Bool :=
  flags.getD (ti_y * ntx + ti_x) 0 &&& 1 = 0
  && (ti_x = 0 || flags.getD (ti_y * ntx + ti_x - 1) 0 &&& 1 = 0)
  && (ti_y = 0 || flags.getD ((ti_y - 1) * ntx + ti_x) 0 &&& 1 = 0)
  && (ti_x = ntx - 1 || flags.getD (ti_y * ntx + ti_x + 1) 0 &&& 1 = 0)
  && (ti_y = nty - 1 || flags.getD ((ti_y + 1) * ntx + ti_x) 0 &&& 1 = 0)

def tileList (ntx nty : Nat) : List (Nat × Nat) :=
  (List.range' 0 nty).flatMap fun ti_y =>
    (List.range' 0 ntx).map fun ti_x => (ti_y, ti_x)

def markTile (width height tile_width tile_height ntx nty iter : Nat)
    (st : List Nat × List Nat × Bool) (t : Nat × Nat) :
    List Nat × List Nat × Bool :=
  let ti_y := t.1
  let ti_x := t.2
  let im := st.1
  let flags := st.2.1
  let diff := st.2.2
  if tileSkip flags ntx nty ti_x ti_y then st
  else
    let win_x := ti_x * tile_width
    let win_y := ti_y * tile_height
    let win_w := min tile_width (width - win_x)
    let win_h := min tile_height (height - win_y)
    let r := thinning_zs_iteration im win_x win_y win_w win_h width height iter
    if r.2 then
      (r.1, flags.set (ti_y * ntx + ti_x)
        (flags.getD (ti_y * ntx + ti_x) 0 ||| 1), true)
    else
      (r.1, flags.set (ti_y * ntx + ti_x)
        (flags.getD (ti_y * ntx + ti_x) 0 &&& 254), diff)

def markPhase (width height tile_width tile_height ntx nty iter : Nat)
    (im : List Nat) (flags : List Nat) : List Nat × List Nat × Bool :=
  (tileList ntx nty).foldl (markTile width height tile_width tile_height ntx nty iter)
    (im, flags, false)

def postTile (width height tile_width tile_height ntx : Nat)
    (flags : List Nat) (im : List Nat) (t : Nat × Nat) : List Nat :=
  let ti_y := t.1
  let ti_x := t.2
  if flags.getD (ti_y * ntx + ti_x) 0 &&& 1 = 0 then im
  else
    let win_x := ti_x * tile_width
    let win_y := ti_y * tile_height
    let win_w := min tile_width (width - win_x)
    let win_h := min tile_height (height - win_y)
    thinning_zs_post im win_x win_y win_w win_h width

def postPhase (width height tile_width tile_height ntx nty : Nat)
    (im : List Nat) (flags : List Nat) : List Nat :=
  (tileList ntx nty).foldl (postTile width height tile_width tile_height ntx flags) im

def tiledLoop (width height tile_width tile_height ntx nty : Nat) :
    Nat → List Nat → List Nat → Option (List Nat)
  | 0, _, _ => none
  | fuel + 1, im, flags =>
    let m0 := markPhase width height tile_width tile_height ntx nty 0 im flags
    if m0.2.2 then
      let im1 := postPhase width height tile_width tile_height ntx nty m0.1 m0.2.1
      let m1 := markPhase width height tile_width tile_height ntx nty 1 im1 m0.2.1
      if m1.2.2 then
        let im2 := postPhase width height tile_width tile_height ntx nty m1.1 m1.2.1
        tiledLoop width height tile_width tile_height ntx nty fuel im2 m1.2.1
      else some m1.1
    else some m0.1

def thinning_zs_tiled (im : List Nat)
    (width height tile_width tile_height : Nat) : Option (List Nat) :=
  let ntx := (width + tile_width - 1) / tile_width
  let nty := (height + tile_height - 1) / tile_height
  tiledLoop width height tile_width tile_height ntx nty (3 * im.length + 1) im
    (List.replicate (ntx * nty) 1)

/-! ## Embedding of src/skeleton.rs

Fragments are lists of `(x, y)` pixel coordinates (the Rust `[usize; 2]`
points with index 0 = x, index 1 = y).  Indexing a fragment reads with
default `(0, 0)`, mirroring the Rust panics' complement on the
non-panicking domain; `i32` coordinate arithmetic is done in `Int` and
cast back with `Int.toNat`.  The `u8` convolution sum wraps modulo 256
as a release build does. -/

abbrev Frags := List (List (Nat × Nat))

def HORIZONTAL : Nat := 1
def VERTICAL : Nat := 2

def not_empty (im : List Nat) (ww _hh x y w h : Nat) : Bool :=
  ((List.range' y h).flatMap fun i => (List.range' x w).map fun j => (i, j)).any
    fun c => im.getD (c.1 * ww + c.2) 0 != 0

def fragPoint (f : List (Nat × Nat)) (first : Bool) : Nat × Nat :=
  if first then f.getD 0 (0, 0) else f.getD (f.length - 1) (0, 0)

def mergeAxis (isv : Bool) (p : Nat × Nat) : Int :=
  if isv then (p.2 : Int) else (p.1 : Int)

def mergeOff (isv : Bool) (p : Nat × Nat) : Int :=
  if isv then (p.1 : Int) else (p.2 : Int)

def bestStep (c0 : Frags) (sx : Nat) (isv b0 : Bool) (p1 : Nat × Nat)
    (acc : Option Nat × Int) (j : Nat) : Option Nat × Int :=
  let p0 := fragPoint (c0.getD j []) b0
  if (mergeAxis isv p0 - (sx : Int)).natAbs > 1 then acc
  else
    let d : Int := ((mergeOff isv p0 - mergeOff isv p1).natAbs : Int)
    if d < acc.2 then (some j, d) else acc

def bestMatch (c0 : Frags) (sx : Nat) (isv b0 : Bool) (p1 : Nat × Nat) :
    Option Nat × Int :=
  (List.range c0.length).foldl (bestStep c0 sx isv b0 p1) (none, 4)

def mergeB0 (mode : Nat) : Bool := (mode >>> 1) &&& 1 > 0

def mergeB1 (mode : Nat) : Bool := (mode >>> 0) &&& 1 > 0

def merge_impl (c0 c1 : Frags) (i sx : Nat) (isv : Bool) (mode : Nat) :
    Frags × Frags × Bool :=
  let b0 := mergeB0 mode
  let b1 := mergeB1 mode
  let p1 := fragPoint (c1.getD i []) b1
  if (mergeAxis isv p1 - (sx : Int)).natAbs > 0 then (c0, c1, false)
  else
    match (bestMatch c0 sx isv b0 p1).1 with
    | some j =>
      let f1 := c1.getD i []
      let fj := c0.getD j []
      let merged :=
        if b0 && b1 then f1.reverse ++ fj
        else if !b0 && b1 then fj ++ f1
        else if b0 && !b1 then f1 ++ fj
        else fj ++ f1.reverse
      (c0.set j merged, c1.eraseIdx i, true)
    | none => (c0, c1, false)

def tryMerge (c0 c1 : Frags) (i sx : Nat) (isv : Bool) : Frags × Frags :=
  let r1 := merge_impl c0 c1 i sx isv 1
  if r1.2.2 then (r1.1, r1.2.1) else
  let r3 := merge_impl c0 c1 i sx isv 3
  if r3.2.2 then (r3.1, r3.2.1) else
  let r0 := merge_impl c0 c1 i sx isv 0
  if r0.2.2 then (r0.1, r0.2.1) else
  let r2 := merge_impl c0 c1 i sx isv 2
  (r2.1, r2.2.1)

def mergeLoop (sx : Nat) (isv : Bool) : Nat → Frags → Frags → Frags × Frags
  | 0, c0, c1 => (c0, c1)
  | i + 1, c0, c1 =>
    let r := tryMerge c0 c1 i sx isv
    mergeLoop sx isv i r.1 r.2

def merge_frags (c0 c1 : Frags) (sx dr : Nat) : Frags :=
  if c0.length = 0 then c0 ++ c1
  else if c1.length = 0 then c0
  else if dr = HORIZONTAL then
    (mergeLoop sx false c1.length c0 c1).1 ++ (mergeLoop sx false c1.length c0 c1).2
  else if dr = VERTICAL then
    (mergeLoop sx true c1.length c0 c1).1 ++ (mergeLoop sx true c1.length c0 c1).2
  else c0 ++ c1

def boundaryCoord (x y w h k : Nat) : Nat × Nat :=
  let kk : Int := k
  let i : Int :=
    if kk < (w : Int) then (y : Int)
    else if kk < (w : Int) + (h : Int) - 1 then (y : Int) + kk - (w : Int) + 1
    else if kk < (w : Int) + (h : Int) + (w : Int) - 2 then (y : Int) + (h : Int) - 1
    else (y : Int) + (h : Int) - (kk - (w : Int) - (h : Int) - (w : Int) + 4)
  let j : Int :=
    if kk < (w : Int) then (x : Int) + kk
    else if kk < (w : Int) + (h : Int) - 1 then (x : Int) + (w : Int) - 1
    else if kk < (w : Int) + (h : Int) + (w : Int) - 2 then
      (x : Int) + (w : Int) - (kk - (w : Int) - (h : Int) + 3)
    else (x : Int)
  (i.toNat, j.toNat)

def closeStroke (frags : Frags) (lj li : Nat) : Frags :=
  let l := frags.length
  let f := frags.getD (l - 1) []
  let p := f.getD 0 (0, 0)
  frags.set (l - 1) (f.set 0 ((p.1 + lj) / 2, (p.2 + li) / 2))

def chunkWalkStep (im : List Nat) (ww x y w h : Nat)
    (st : Frags × Bool × Nat × Nat) (k : Nat) : Frags × Bool × Nat × Nat :=
  let c := boundaryCoord x y w h k
  let i := c.1
  let j := c.2
  if im.getD (i * ww + j) 0 ≠ 0 then
    if !st.2.1 then (st.1 ++ [[(j, i), (x + w / 2, y + h / 2)]], true, i, j)
    else (st.1, st.2.1, i, j)
  else
    if st.2.1 then (closeStroke st.1 st.2.2.2 st.2.2.1, false, i, j)
    else (st.1, st.2.1, i, j)

def convStep (im : List Nat) (ww x y w h : Nat)
    (st : Nat × Int × Int) (c : Nat × Nat) : Nat × Int × Int :=
  let i := c.1
  let j := c.2
  let s := (im.getD (i * ww - ww + j - 1) 0 + im.getD (i * ww - ww + j) 0
    + im.getD (i * ww - ww + j - 1 + 1) 0 + im.getD (i * ww + j - 1) 0
    + im.getD (i * ww + j) 0 + im.getD (i * ww + j + 1) 0
    + im.getD (i * ww + ww + j - 1) 0 + im.getD (i * ww + ww + j) 0
    + im.getD (i * ww + ww + j + 1) 0) % 256
  if s > st.1 then (s, (i : Int), (j : Int))
  else if s = st.1 ∧
      ((j : Int) - ((x + w / 2 : Nat) : Int)).natAbs
          + ((i : Int) - ((y + h / 2 : Nat) : Int)).natAbs
        < (st.2.2 - ((x + w / 2 : Nat) : Int)).natAbs
          + (st.2.1 - ((y + h / 2 : Nat) : Int)).natAbs
  then (s, (i : Int), (j : Int))
  else st

def interiorCells (x y w h : Nat) : List (Nat × Nat) :=
  (List.range' (y + 1) (y + h - 1 - (y + 1))).flatMap fun i =>
    (List.range' (x + 1) (x + w - 1 - (x + 1))).map fun j => (i, j)

def chunk_to_frags (im : List Nat) (ww _hh x y w h : Nat) : Frags :=
  let walk := (List.range (h + h + w + w - 4)).foldl (chunkWalkStep im ww x y w h)
    ([], false, 0, 0)
  let frags := walk.1
  if frags.length = 2 then
    [[(frags.getD 0 []).getD 0 (0, 0), (frags.getD 1 []).getD 0 (0, 0)]]
  else if frags.length > 2 then
    let conv := (interiorCells x y w h).foldl (convStep im ww x y w h) (0, -1, -1)
    if conv.2.1 ≠ -1 then
      frags.map fun f => f.set 1 (conv.2.2.toNat, conv.2.1.toNat)
    else frags
  else frags

def hSeamStep (im : List Nat) (ww x y w h : Nat) (st : Nat × Int) (i : Nat) :
    Nat × Int :=
  if im.getD (i * ww + x) 0 > 0 ∨ im.getD ((i - 1) * ww + x) 0 > 0
      ∨ im.getD (i * ww + x + w - 1) 0 > 0
      ∨ im.getD ((i - 1) * ww + x + w - 1) 0 > 0
  then st
  else
    let s := ((List.range' x w).map fun j =>
      im.getD (i * ww + j) 0 + im.getD ((i - 1) * ww + j) 0).sum
    if s < st.1 then (s, (i : Int))
    else if s = st.1 ∧ ((i : Int) - ((y + h / 2 : Nat) : Int)).natAbs
        < (st.2 - ((y + h / 2 : Nat) : Int)).natAbs then (s, (i : Int))
    else st

def vSeamStep (im : List Nat) (ww x y w h : Nat) (st : Nat × Int × Int) (j : Nat) :
    Nat × Int × Int :=
  if im.getD (ww * y + j) 0 > 0 ∨ im.getD (ww * (y + h) - ww + j) 0 > 0
      ∨ im.getD (ww * y + j - 1) 0 > 0 ∨ im.getD (ww * (y + h) - ww + j - 1) 0 > 0
  then st
  else
    let s := ((List.range' y h).map fun i =>
      im.getD (i * ww + j) 0 + im.getD (i * ww + j - 1) 0).sum
    if s < st.1 then (s, -1, (j : Int))
    else if s = st.1 ∧ ((j : Int) - ((x + w / 2 : Nat) : Int)).natAbs
        < (st.2.2 - ((x + w / 2 : Nat) : Int)).natAbs then (s, -1, (j : Int))
    else st

def trace_skeleton (im : List Nat) (ww hh : Nat) :
    Nat → Nat → Nat → Nat → Nat → Nat → Frags
  | _, _, _, _, _, 0 => []
  | x, y, w, h, chunk_size, max_iter + 1 =>
    if w ≤ chunk_size ∧ h ≤ chunk_size then chunk_to_frags im ww hh x y w h
    else
      let st1 : Nat × Int :=
        if h > chunk_size then
          (List.range' (y + 3) (y + h - 3 - (y + 3))).foldl
            (hSeamStep im ww x y w h) (ww + hh, -1)
        else (ww + hh, -1)
      let st2 : Nat × Int × Int :=
        if w > chunk_size then
          (List.range' (x + 3) (x + w - 3 - (x + 3))).foldl
            (vSeamStep im ww x y w h) (st1.1, st1.2, -1)
        else (st1.1, st1.2, -1)
      let mi := st2.2.1
      let mj := st2.2.2
      let frags2 : Frags :=
        if h > chunk_size ∧ mi ≠ -1 then
          let frags1 : Frags :=
            if not_empty im ww hh x y w (mi - (y : Int)).toNat then
              merge_frags [] (trace_skeleton im ww hh x y w (mi - (y : Int)).toNat
                chunk_size max_iter) mi.toNat VERTICAL
            else []
          if not_empty im ww hh x mi.toNat w ((y : Int) + (h : Int) - mi).toNat then
            merge_frags frags1 (trace_skeleton im ww hh x mi.toNat w
              ((y : Int) + (h : Int) - mi).toNat chunk_size max_iter) mi.toNat VERTICAL
          else frags1
        else if w > chunk_size ∧ mj ≠ -1 then
          let frags1 : Frags :=
            if not_empty im ww hh x y (mj - (x : Int)).toNat h then
              merge_frags [] (trace_skeleton im ww hh x y (mj - (x : Int)).toNat h
                chunk_size max_iter) mj.toNat HORIZONTAL
            else []
          if not_empty im ww hh mj.toNat y ((x : Int) + (w : Int) - mj).toNat h then
            merge_frags frags1 (trace_skeleton im ww hh mj.toNat y
              ((x : Int) + (w : Int) - mj).toNat h chunk_size max_iter) mj.toNat HORIZONTAL
          else frags1
        else []
      if mi = -1 ∧ mj = -1 then chunk_to_frags im ww hh x y w h else frags2

/-! ## Specification-side definitions used by the development

The remaining definitions are not part of the embedded program: they
name the byte-level commit map, the two step relations a pass induces
on the buffer, the termination measure, and the endpoint-matching
predicates of the merger, all used to state and prove the theorems
below. -/

def postFix (b : Nat) : Nat := if b % 2 = 1 ∧ b / 2 % 2 = 1 then 0 else b

def MarkStep (a b : List Nat) : Prop :=
  ∀ idx, b.getD idx 0 = a.getD idx 0 ∨
    (b.getD idx 0 = a.getD idx 0 ||| 2 ∧ a.getD idx 0 &&& 2 = 0)

def PostStep (a b : List Nat) : Prop :=
  ∀ idx, b.getD idx 0 = a.getD idx 0 ∨ b.getD idx 0 = postFix (a.getD idx 0)

def byteWeight (b : Nat) : Nat := 2 * (b % 2) + (1 - b / 2 % 2)

def measureM (im : List Nat) : Nat :=
  Finset.sum (Finset.range im.length) fun idx => byteWeight (im.getD idx 0)

def mergeQual (c0 : Frags) (sx : Nat) (isv b0 : Bool) (j : Nat) : Prop :=
  (mergeAxis isv (fragPoint (c0.getD j []) b0) - (sx : Int)).natAbs ≤ 1

instance (c0 : Frags) (sx : Nat) (isv b0 : Bool) (j : Nat) :
    Decidable (mergeQual c0 sx isv b0 j) := by
  unfold mergeQual
  infer_instance

def mergeDist (c0 : Frags) (isv b0 : Bool) (p1 : Nat × Nat) (j : Nat) : Int :=
  ((mergeOff isv (fragPoint (c0.getD j []) b0) - mergeOff isv p1).natAbs : Int)

/-! ## Bit-level helpers -/

theorem nat_mod_two_eq_toNat_testBit (x : Nat) : x % 2 = (x.testBit 0).toNat := by
  rcases Nat.mod_two_eq_zero_or_one x with h | h <;>
    simp [Nat.testBit_zero, h]

theorem nat_div_two_mod_two_eq_toNat_testBit (x : Nat) :
    x / 2 % 2 = (x.testBit 1).toNat := by
  have h : x.testBit 1 = decide (x / 2 ^ 1 % 2 = 1) := Nat.testBit_to_div_mod
  rcases Nat.mod_two_eq_zero_or_one (x / 2) with h2 | h2 <;>
    simp [h, pow_one, h2]

theorem or_two_mod_two (b : Nat) : (b ||| 2) % 2 = b % 2 := by
  rw [nat_mod_two_eq_toNat_testBit, nat_mod_two_eq_toNat_testBit b,
    Nat.testBit_lor]
  norm_num [Nat.testBit_to_div_mod]

theorem or_two_div_two_mod_two (b : Nat) : (b ||| 2) / 2 % 2 = 1 := by
  rw [nat_div_two_mod_two_eq_toNat_testBit, Nat.testBit_lor]
  norm_num [Nat.testBit_to_div_mod]

theorem and_two_char (b : Nat) : b &&& 2 = if b / 2 % 2 = 1 then 2 else 0 := by
  have h := Nat.and_two_pow b 1
  rw [pow_one] at h
  rw [h, nat_div_two_mod_two_eq_toNat_testBit]
  cases b.testBit 1 <;> simp

theorem and_two_eq_zero_iff (b : Nat) : b &&& 2 = 0 ↔ b / 2 % 2 = 0 := by
  rw [and_two_char]
  rcases Nat.mod_two_eq_zero_or_one (b / 2) with h | h <;> simp [h]

theorem or_two_ne_of_unmarked {b : Nat} (h : b &&& 2 = 0) : b ||| 2 ≠ b := by
  intro he
  have h1 : (b ||| 2) / 2 % 2 = 1 := or_two_div_two_mod_two b
  rw [he] at h1
  rw [and_two_eq_zero_iff] at h
  omega

theorem or_two_shiftRight_two (b : Nat) : (b ||| 2) >>> 2 = b >>> 2 := by
  refine Nat.eq_of_testBit_eq fun i => ?_
  rw [Nat.testBit_shiftRight, Nat.testBit_shiftRight, Nat.testBit_lor]
  have h2 : Nat.testBit 2 (2 + i) = false := by
    have hlt : (2 : Nat) < 2 ^ (2 + i) := by
      calc (2 : Nat) < 4 := by norm_num
      _ ≤ 2 ^ (2 + i) := by
          have := Nat.pow_le_pow_right (show 0 < 2 by norm_num) (show 2 ≤ 2 + i by omega)
          simpa using this
    simp [Nat.testBit_to_div_mod, Nat.div_eq_of_lt hlt]
  rw [h2, Bool.or_false]

/-! ## List access helpers -/

theorem getD_set_self {l : List Nat} {i v : Nat} (h : i < l.length) :
    (l.set i v).getD i 0 = v := by
  simp [List.getD_eq_getElem?_getD, List.getElem?_set_self, h]

theorem getD_set_ne {l : List Nat} {i k v : Nat} (h : i ≠ k) :
    (l.set i v).getD k 0 = l.getD k 0 := by
  simp [List.getD_eq_getElem?_getD, List.getElem?_set_ne, h]

theorem getD_of_length_le {l : List Nat} {i : Nat} (h : l.length ≤ i) :
    l.getD i 0 = 0 := by
  simp [List.getD_eq_getElem?_getD, List.getElem?_eq_none, h]

theorem or_two_eq_self {b : Nat} (h : b &&& 2 ≠ 0) : b ||| 2 = b := by
  have h0 : ¬ b / 2 % 2 = 0 := fun hc => h ((and_two_eq_zero_iff b).mpr hc)
  have h1 : b / 2 % 2 = 1 := by omega
  refine Nat.eq_of_testBit_eq fun i => ?_
  rw [Nat.testBit_lor]
  match i with
  | 0 => norm_num [Nat.testBit_to_div_mod]
  | 1 => norm_num [Nat.testBit_to_div_mod, pow_one, h1]
  | i + 2 =>
    have hlt : (2 : Nat) < 2 ^ (i + 2) := by
      calc (2 : Nat) < 4 := by norm_num
      _ ≤ 2 ^ (i + 2) := by
          have := Nat.pow_le_pow_right (show 0 < 2 by norm_num) (show 2 ≤ i + 2 by omega)
          simpa [pow_two] using this
    simp [Nat.testBit_to_div_mod, Nat.div_eq_of_lt hlt]

theorem or_two_or_two (b : Nat) : b ||| 2 ||| 2 = b ||| 2 := by
  refine or_two_eq_self fun hc => ?_
  have := (and_two_eq_zero_iff (b ||| 2)).mp hc
  rw [or_two_div_two_mod_two] at this
  omega

/-! ## Pointwise characterisation of the marking pass

During one call of `thinning_zs_iteration` only marker bits are set, so
the foreground bits read by `zsCond` never change; the marking pass is
therefore equivalent to a pointwise map, provided every visited cell
addresses a byte inside the buffer (on cells outside the buffer the
Rust code panics and the characterisation is not claimed). -/

theorem zsCond_congr {a b : List Nat} {w i j iter : Nat}
    (h : ∀ idx, a.getD idx 0 &&& 1 = b.getD idx 0 &&& 1) :
    zsCond a w i j iter = zsCond b w i j iter := by
  unfold zsCond
  rw [h, h, h, h, h, h, h, h]

theorem zsMarkCell_and_one (iter w : Nat) (st : List Nat × Bool) (c : Nat × Nat)
    (idx : Nat) :
    (zsMarkCell iter w st c).1.getD idx 0 &&& 1 = st.1.getD idx 0 &&& 1 := by
  unfold zsMarkCell
  split
  · split
    · by_cases hidx : c.1 * w + c.2 = idx
      · subst hidx
        by_cases hlt : c.1 * w + c.2 < st.1.length
        · show (st.1.set _ _).getD _ 0 &&& 1 = _
          rw [getD_set_self hlt, Nat.and_one_is_mod, Nat.and_one_is_mod,
            or_two_mod_two]
        · rw [List.set_eq_of_length_le (by omega)]
      · show (st.1.set _ _).getD _ 0 &&& 1 = _
        rw [getD_set_ne hidx]
    · rfl
  · rfl

theorem zsMarkCell_length (iter w : Nat) (st : List Nat × Bool) (c : Nat × Nat) :
    (zsMarkCell iter w st c).1.length = st.1.length := by
  unfold zsMarkCell
  split
  · split
    · exact List.length_set st.1 _ _
    · rfl
  · rfl

/-- Effect of a single cell visit on the buffer, assuming the visited byte
is inside the buffer. -/
theorem zsMarkCell_getD (iter w : Nat) (st : List Nat × Bool) (c : Nat × Nat)
    (hc : c.1 * w + c.2 < st.1.length) (idx : Nat) :
    (zsMarkCell iter w st c).1.getD idx 0 =
      if idx = c.1 * w + c.2 ∧ zsCond st.1 w c.1 c.2 iter = true
      then st.1.getD idx 0 ||| 2 else st.1.getD idx 0 := by
  unfold zsMarkCell
  by_cases hcond : zsCond st.1 w c.1 c.2 iter = true
  · simp only [hcond, if_true]
    by_cases hmk : st.1.getD (c.1 * w + c.2) 0 &&& 2 = 0
    · simp only [hmk, if_true]
      by_cases hidx : idx = c.1 * w + c.2
      · subst hidx
        show (st.1.set _ _).getD _ 0 = _
        rw [getD_set_self hc, if_pos ⟨rfl, trivial⟩]
      · show (st.1.set _ _).getD _ 0 = _
        rw [getD_set_ne (Ne.symm hidx), if_neg (fun hb => hidx hb.1)]
    · simp only [hmk, if_false]
      by_cases hidx : idx = c.1 * w + c.2
      · subst hidx
        rw [if_pos ⟨rfl, trivial⟩, or_two_eq_self hmk]
      · rw [if_neg (fun hb => hidx hb.1)]
  · rw [if_neg hcond, if_neg (fun hb => hcond hb.2)]

theorem or_two_and_two (b : Nat) : (b ||| 2) &&& 2 = 2 := by
  rw [and_two_char, or_two_div_two_mod_two]
  simp

theorem zsMarkCell_diff (iter w : Nat) (st : List Nat × Bool) (c : Nat × Nat) :
    ((zsMarkCell iter w st c).2 = true ↔ st.2 = true ∨
      (zsCond st.1 w c.1 c.2 iter = true ∧ st.1.getD (c.1 * w + c.2) 0 &&& 2 = 0)) := by
  unfold zsMarkCell
  by_cases hcond : zsCond st.1 w c.1 c.2 iter = true
  · rw [if_pos hcond]
    by_cases hmk : st.1.getD (c.1 * w + c.2) 0 &&& 2 = 0
    · rw [if_pos hmk]
      simp only [hcond, true_and]
      exact ⟨fun _ => Or.inr hmk, fun _ => trivial⟩
    · rw [if_neg hmk]
      simp only [hcond, true_and]
      exact ⟨fun hs => Or.inl hs, fun hs => hs.elim id fun hx => absurd hx hmk⟩
  · rw [if_neg hcond]
    constructor
    · exact fun hs => Or.inl hs
    · rintro (hs | ⟨hc, _⟩)
      · exact hs
      · exact absurd hc hcond

/-- Characterisation of folding `zsMarkCell` over a list of cells whose
addressed bytes all lie inside the buffer: the buffer is updated
pointwise, OR-ing the marker bit into every visited cell whose
condition holds in the original buffer, and the returned flag reports
whether some marker bit was newly set. -/
theorem markFold_char (iter w : Nat) (cs : List (Nat × Nat)) :
    ∀ (im : List Nat) (d : Bool),
      (∀ c ∈ cs, c.1 * w + c.2 < im.length) →
      ((cs.foldl (zsMarkCell iter w) (im, d)).1.length = im.length)
      ∧ (∀ idx,
          ((∃ c ∈ cs, idx = c.1 * w + c.2 ∧ zsCond im w c.1 c.2 iter = true) →
            (cs.foldl (zsMarkCell iter w) (im, d)).1.getD idx 0 = im.getD idx 0 ||| 2)
          ∧ (¬ (∃ c ∈ cs, idx = c.1 * w + c.2 ∧ zsCond im w c.1 c.2 iter = true) →
            (cs.foldl (zsMarkCell iter w) (im, d)).1.getD idx 0 = im.getD idx 0))
      ∧ ((cs.foldl (zsMarkCell iter w) (im, d)).2 = true ↔ d = true ∨
          ∃ c ∈ cs, zsCond im w c.1 c.2 iter = true ∧
            im.getD (c.1 * w + c.2) 0 &&& 2 = 0) := by
  induction cs with
  | nil => intro im d _; simp
  | cons c cs ih =>
    intro im d hb
    have hc : c.1 * w + c.2 < im.length := hb c (List.mem_cons_self c cs)
    have hg : ∀ idx, (zsMarkCell iter w (im, d) c).1.getD idx 0 =
        if idx = c.1 * w + c.2 ∧ zsCond im w c.1 c.2 iter = true
        then im.getD idx 0 ||| 2 else im.getD idx 0 :=
      zsMarkCell_getD iter w (im, d) c hc
    have hlen₁ : (zsMarkCell iter w (im, d) c).1.length = im.length :=
      zsMarkCell_length iter w (im, d) c
    have hone : ∀ idx, (zsMarkCell iter w (im, d) c).1.getD idx 0 &&& 1 =
        im.getD idx 0 &&& 1 := zsMarkCell_and_one iter w (im, d) c
    have hcondt : ∀ i j, zsCond (zsMarkCell iter w (im, d) c).1 w i j iter =
        zsCond im w i j iter := fun i j => zsCond_congr hone
    have hdiff₁ := zsMarkCell_diff iter w (im, d) c
    have hb' : ∀ c' ∈ cs, c'.1 * w + c'.2 < (zsMarkCell iter w (im, d) c).1.length := by
      intro c' hc'
      rw [hlen₁]
      exact hb c' (List.mem_cons_of_mem c hc')
    obtain ⟨ihlen, ihval, ihdiff⟩ :=
      ih (zsMarkCell iter w (im, d) c).1 (zsMarkCell iter w (im, d) c).2 hb'
    have hfold : (c :: cs).foldl (zsMarkCell iter w) (im, d) =
        cs.foldl (zsMarkCell iter w) (zsMarkCell iter w (im, d) c) := rfl
    rw [hfold]
    refine ⟨ihlen.trans hlen₁, ?_, ?_⟩
    · intro idx
      constructor
      · rintro ⟨c', hc', hidx, hcond⟩
        rcases List.mem_cons.mp hc' with hh | ht
        · rw [hh] at hidx hcond
          by_cases htail : ∃ c'' ∈ cs, idx = c''.1 * w + c''.2 ∧
              zsCond im w c''.1 c''.2 iter = true
          · obtain ⟨c'', hm'', hi'', hcd''⟩ := htail
            have := (ihval idx).1 ⟨c'', hm'', hi'', by rw [hcondt]; exact hcd''⟩
            rw [this, hg idx, if_pos ⟨hidx, hcond⟩, or_two_or_two]
          · have hnot : ¬ ∃ c'' ∈ cs, idx = c''.1 * w + c''.2 ∧
                zsCond (zsMarkCell iter w (im, d) c).1 w c''.1 c''.2 iter = true := by
              rintro ⟨c'', hm'', hi'', hcd''⟩
              exact htail ⟨c'', hm'', hi'', by rw [hcondt] at hcd''; exact hcd''⟩
            have := (ihval idx).2 hnot
            rw [this, hg idx, if_pos ⟨hidx, hcond⟩]
        · have := (ihval idx).1 ⟨c', ht, hidx, by rw [hcondt]; exact hcond⟩
          rw [this, hg idx]
          by_cases hhead : idx = c.1 * w + c.2 ∧ zsCond im w c.1 c.2 iter = true
          · rw [if_pos hhead, or_two_or_two]
          · rw [if_neg hhead]
      · intro hno
        have hnohead : ¬ (idx = c.1 * w + c.2 ∧ zsCond im w c.1 c.2 iter = true) :=
          fun hh => hno ⟨c, List.mem_cons_self c cs, hh.1, hh.2⟩
        have hnotail : ¬ ∃ c'' ∈ cs, idx = c''.1 * w + c''.2 ∧
            zsCond (zsMarkCell iter w (im, d) c).1 w c''.1 c''.2 iter = true := by
          rintro ⟨c'', hm'', hi'', hcd''⟩
          rw [hcondt] at hcd''
          exact hno ⟨c'', List.mem_cons_of_mem c hm'', hi'', hcd''⟩
        have := (ihval idx).2 hnotail
        rw [this, hg idx, if_neg hnohead]
    · rw [ihdiff]
      constructor
      · rintro (hd1 | ⟨c', hm', hcd', hum'⟩)
        · rcases (hdiff₁.mp hd1) with hd | ⟨hcd, hum⟩
          · exact Or.inl hd
          · exact Or.inr ⟨c, List.mem_cons_self c cs, hcd, hum⟩
        · rw [hcondt] at hcd'
          have hum : im.getD (c'.1 * w + c'.2) 0 &&& 2 = 0 := by
            have := hg (c'.1 * w + c'.2)
            by_cases hhead : c'.1 * w + c'.2 = c.1 * w + c.2 ∧
                zsCond im w c.1 c.2 iter = true
            · rw [if_pos hhead] at this
              rw [this, or_two_and_two] at hum'
              omega
            · rw [if_neg hhead] at this
              rw [this] at hum'
              exact hum'
          exact Or.inr ⟨c', List.mem_cons_of_mem c hm', hcd', hum⟩
      · rintro (hd | ⟨c', hm', hcd', hum'⟩)
        · exact Or.inl (hdiff₁.mpr (Or.inl hd))
        · rcases List.mem_cons.mp hm' with hh | ht
          · subst hh
            exact Or.inl (hdiff₁.mpr (Or.inr ⟨hcd', hum'⟩))
          · by_cases hhead : c'.1 * w + c'.2 = c.1 * w + c.2 ∧
                zsCond im w c.1 c.2 iter = true
            · refine Or.inl (hdiff₁.mpr (Or.inr ⟨hhead.2, ?_⟩))
              rw [← hhead.1]
              exact hum'
            · refine Or.inr ⟨c', ht, by rw [hcondt]; exact hcd', ?_⟩
              rw [hg (c'.1 * w + c'.2), if_neg hhead]
              exact hum'

/-! ## Pointwise characterisation of the post-pass

Each cell visit of `thinning_zs_post` depends only on the byte it
addresses, and committing a byte twice is harmless, so the whole fold
is a pointwise map by `postFix`: a byte with both low bits set becomes
0, every other byte is left untouched (the guarded write skips it). -/

theorem postFix_idem (b : Nat) : postFix (postFix b) = postFix b := by
  unfold postFix
  by_cases h : b % 2 = 1 ∧ b / 2 % 2 = 1
  · rw [if_pos h]
    norm_num
  · rw [if_neg h, if_neg h]

theorem one_and_eq_mod_two (y : Nat) : 1 &&& y = y % 2 := by
  rw [Nat.land_comm, Nat.and_one_is_mod]

theorem xor_255_mod_two (m : Nat) : (m ^^^ 255) % 2 = 1 - m % 2 := by
  rw [nat_mod_two_eq_toNat_testBit, Nat.testBit_xor]
  have h255 : Nat.testBit 255 0 = true := by norm_num [Nat.testBit_to_div_mod]
  rw [h255]
  rcases Nat.mod_two_eq_zero_or_one m with h | h <;>
    · have : m.testBit 0 = decide (m % 2 = 1) := by simp [Nat.testBit_zero]
      rw [this, h]
      simp [h]

theorem postCell_nw (b : Nat) :
    (b &&& 1) &&& ((b >>> 1) ^^^ 255) = if b % 2 = 1 ∧ b / 2 % 2 = 1 then 0 else b % 2 := by
  rw [Nat.and_one_is_mod, Nat.shiftRight_one]
  by_cases hcrit : b % 2 = 1 ∧ b / 2 % 2 = 1
  · rw [if_pos hcrit, hcrit.1, one_and_eq_mod_two, xor_255_mod_two, hcrit.2]
  · rw [if_neg hcrit]
    rcases Nat.mod_two_eq_zero_or_one b with h | h
    · rw [h, Nat.zero_and]
    · have h2 : b / 2 % 2 = 0 := by
        rcases Nat.mod_two_eq_zero_or_one (b / 2) with h2 | h2
        · exact h2
        · exact absurd ⟨h, h2⟩ hcrit
      rw [h, one_and_eq_mod_two, xor_255_mod_two, h2]

theorem postCell_getD (w : Nat) (im : List Nat) (c : Nat × Nat) (idx : Nat) :
    (postCell w im c).getD idx 0 =
      if idx = c.1 * w + c.2 then postFix (im.getD idx 0) else im.getD idx 0 := by
  unfold postCell
  simp only []
  set b := im.getD (c.1 * w + c.2) 0 with hb
  rw [postCell_nw b]
  by_cases hcrit : b % 2 = 1 ∧ b / 2 % 2 = 1
  · rw [if_pos hcrit]
    have hold : b &&& 1 = 1 := by rw [Nat.and_one_is_mod, hcrit.1]
    have hne : (0 : Nat) ≠ b &&& 1 := by rw [hold]; omega
    rw [if_pos hne]
    have hlt : c.1 * w + c.2 < im.length := by
      by_contra hge
      have : b = 0 := by rw [hb]; exact getD_of_length_le (by omega)
      omega
    by_cases hidx : idx = c.1 * w + c.2
    · subst hidx
      rw [getD_set_self hlt, if_pos rfl]
      unfold postFix
      rw [← hb, if_pos hcrit]
    · rw [getD_set_ne (Ne.symm hidx), if_neg hidx]
  · rw [if_neg hcrit]
    have hold : b % 2 = b &&& 1 := (Nat.and_one_is_mod b).symm
    have heq : ¬ (b % 2 ≠ b &&& 1) := by omega
    rw [if_neg heq]
    by_cases hidx : idx = c.1 * w + c.2
    · subst hidx
      rw [if_pos rfl]
      unfold postFix
      rw [← hb, if_neg hcrit]
    · rw [if_neg hidx]

theorem postCell_length (w : Nat) (im : List Nat) (c : Nat × Nat) :
    (postCell w im c).length = im.length := by
  unfold postCell
  dsimp only
  split
  · exact List.length_set im _ _
  · rfl

theorem postFold_char (w : Nat) (cs : List (Nat × Nat)) :
    ∀ im : List Nat,
      ((cs.foldl (postCell w) im).length = im.length)
      ∧ ∀ idx, (cs.foldl (postCell w) im).getD idx 0 =
          if ∃ c ∈ cs, idx = c.1 * w + c.2
          then postFix (im.getD idx 0) else im.getD idx 0 := by
  induction cs with
  | nil => intro im; simp
  | cons c cs ih =>
    intro im
    have hfold : (c :: cs).foldl (postCell w) im =
        cs.foldl (postCell w) (postCell w im c) := rfl
    obtain ⟨ihlen, ihval⟩ := ih (postCell w im c)
    rw [hfold]
    refine ⟨ihlen.trans (postCell_length w im c), fun idx => ?_⟩
    rw [ihval idx, postCell_getD w im c idx]
    by_cases hhead : idx = c.1 * w + c.2
    · rw [if_pos hhead]
      by_cases htail : ∃ c' ∈ cs, idx = c'.1 * w + c'.2
      · rw [if_pos htail, postFix_idem,
          if_pos ⟨c, List.mem_cons_self c cs, hhead⟩]
      · rw [if_neg htail, if_pos ⟨c, List.mem_cons_self c cs, hhead⟩]
    · rw [if_neg hhead]
      by_cases htail : ∃ c' ∈ cs, idx = c'.1 * w + c'.2
      · obtain ⟨c', hm', hi'⟩ := htail
        rw [if_pos ⟨c', hm', hi'⟩,
          if_pos ⟨c', List.mem_cons_of_mem c hm', hi'⟩]
      · rw [if_neg htail, if_neg ?_]
        rintro ⟨c', hm', hi'⟩
        rcases List.mem_cons.mp hm' with hh | ht
        · rw [hh] at hi'
          exact hhead hi'
        · exact htail ⟨c', ht, hi'⟩

/-! ## Marking as a relation, and a termination measure

A marking pass can only OR the marker bit into bytes whose marker bit
was clear; a commit pass can only replace a fully marked byte by 0.
Both moves strictly decrease (or preserve) the measure
`2·foreground + (1 − marker)` summed over the buffer, which bounds the
number of outer rounds of both drivers. -/

theorem markStep_refl (a : List Nat) : MarkStep a a := fun _ => Or.inl rfl

theorem markStep_trans {a b c : List Nat} (h1 : MarkStep a b) (h2 : MarkStep b c) :
    MarkStep a c := by
  intro idx
  rcases h2 idx with h2e | ⟨h2o, h2u⟩
  · rw [h2e]
    exact h1 idx
  · rcases h1 idx with h1e | ⟨h1o, h1u⟩
    · rw [h2o, h1e]
      exact Or.inr ⟨rfl, by rw [← h1e]; exact h2u⟩
    · rw [h1o] at h2u
      rw [or_two_and_two] at h2u
      omega

theorem markStep_marked {a b : List Nat} (h : MarkStep a b) {idx : Nat}
    (hm : a.getD idx 0 &&& 2 ≠ 0) : b.getD idx 0 &&& 2 ≠ 0 := by
  rcases h idx with he | ⟨ho, hu⟩
  · rw [he]; exact hm
  · exact absurd hu hm

theorem markStep_unmarked_back {a b : List Nat} (h : MarkStep a b) {idx : Nat}
    (hm : b.getD idx 0 &&& 2 = 0) : b.getD idx 0 = a.getD idx 0 := by
  rcases h idx with he | ⟨ho, _⟩
  · exact he
  · rw [ho, or_two_and_two] at hm
    omega

theorem zsMarkCell_markStep (iter w : Nat) (st : List Nat × Bool) (c : Nat × Nat) :
    MarkStep st.1 (zsMarkCell iter w st c).1 := by
  unfold zsMarkCell
  by_cases hcond : zsCond st.1 w c.1 c.2 iter = true
  · rw [if_pos hcond]
    by_cases hmk : st.1.getD (c.1 * w + c.2) 0 &&& 2 = 0
    · rw [if_pos hmk]
      intro idx
      by_cases hlt : c.1 * w + c.2 < st.1.length
      · by_cases hidx : idx = c.1 * w + c.2
        · subst hidx
          exact Or.inr ⟨getD_set_self hlt, hmk⟩
        · exact Or.inl (getD_set_ne (Ne.symm hidx))
      · rw [List.set_eq_of_length_le (by omega)]
        exact Or.inl rfl
    · rw [if_neg hmk]
      exact markStep_refl st.1
  · rw [if_neg hcond]
    exact markStep_refl st.1

theorem markFold_markStep (iter w : Nat) (cs : List (Nat × Nat)) :
    ∀ st : List Nat × Bool, MarkStep st.1 ((cs.foldl (zsMarkCell iter w) st).1) := by
  induction cs with
  | nil => intro st; exact markStep_refl st.1
  | cons c cs ih =>
    intro st
    exact markStep_trans (zsMarkCell_markStep iter w st c) (ih (zsMarkCell iter w st c))

theorem markFold_length (iter w : Nat) (cs : List (Nat × Nat)) :
    ∀ st : List Nat × Bool,
      ((cs.foldl (zsMarkCell iter w) st).1.length = st.1.length) := by
  induction cs with
  | nil => intro st; rfl
  | cons c cs ih =>
    intro st
    exact (ih (zsMarkCell iter w st c)).trans (zsMarkCell_length iter w st c)

theorem postStep_refl (a : List Nat) : PostStep a a := fun _ => Or.inl rfl

theorem thinning_zs_post_postStep (im : List Nat) (wx wy ww wh w : Nat) :
    PostStep im (thinning_zs_post im wx wy ww wh w) := by
  intro idx
  obtain ⟨_, hval⟩ := postFold_char w (postWindowCells wx wy ww wh) im
  unfold thinning_zs_post
  rw [hval idx]
  by_cases hmem : ∃ c ∈ postWindowCells wx wy ww wh, idx = c.1 * w + c.2
  · rw [if_pos hmem]
    exact Or.inr rfl
  · rw [if_neg hmem]
    exact Or.inl rfl

theorem thinning_zs_post_length (im : List Nat) (wx wy ww wh w : Nat) :
    (thinning_zs_post im wx wy ww wh w).length = im.length :=
  (postFold_char w (postWindowCells wx wy ww wh) im).1

theorem byteWeight_le_three (b : Nat) : byteWeight b ≤ 3 := by
  unfold byteWeight
  have h1 : b % 2 ≤ 1 := by omega
  omega

theorem byteWeight_or_two {b : Nat} (h : b &&& 2 = 0) :
    byteWeight (b ||| 2) + 1 = byteWeight b := by
  unfold byteWeight
  rw [or_two_mod_two, or_two_div_two_mod_two]
  rw [and_two_eq_zero_iff] at h
  omega

theorem byteWeight_markStep_le {a b : List Nat} (h : MarkStep a b) (idx : Nat) :
    byteWeight (b.getD idx 0) ≤ byteWeight (a.getD idx 0) := by
  rcases h idx with he | ⟨ho, hu⟩
  · rw [he]
  · rw [ho]
    have := byteWeight_or_two hu
    omega

theorem byteWeight_postFix (b : Nat) : byteWeight (postFix b) ≤ byteWeight b := by
  unfold postFix
  by_cases hcrit : b % 2 = 1 ∧ b / 2 % 2 = 1
  · rw [if_pos hcrit]
    unfold byteWeight
    omega
  · rw [if_neg hcrit]

theorem measure_le_of_markStep {a b : List Nat} (h : MarkStep a b)
    (hlen : b.length = a.length) : measureM b ≤ measureM a := by
  unfold measureM
  rw [hlen]
  exact Finset.sum_le_sum fun idx _ => byteWeight_markStep_le h idx

theorem measure_lt_of_markStep_strict {a b : List Nat} (h : MarkStep a b)
    (hlen : b.length = a.length)
    (hstrict : ∃ idx < a.length, a.getD idx 0 &&& 2 = 0 ∧ b.getD idx 0 &&& 2 ≠ 0) :
    measureM b < measureM a := by
  unfold measureM
  rw [hlen]
  obtain ⟨idx, hidx, hum, hm⟩ := hstrict
  refine Finset.sum_lt_sum (fun k _ => byteWeight_markStep_le h k) ⟨idx, Finset.mem_range.mpr hidx, ?_⟩
  rcases h idx with he | ⟨ho, hu⟩
  · rw [he] at hm
    exact absurd hum hm
  · rw [ho]
    have := byteWeight_or_two hu
    omega

theorem measure_le_of_postStep {a b : List Nat} (h : PostStep a b)
    (hlen : b.length = a.length) : measureM b ≤ measureM a := by
  unfold measureM
  rw [hlen]
  refine Finset.sum_le_sum fun idx _ => ?_
  rcases h idx with he | hp
  · rw [he]
  · rw [hp]
    exact byteWeight_postFix _

theorem measure_le_three_mul (im : List Nat) : measureM im ≤ 3 * im.length := by
  unfold measureM
  calc Finset.sum (Finset.range im.length) (fun idx => byteWeight (im.getD idx 0))
      ≤ Finset.sum (Finset.range im.length) (fun _ => 3) :=
        Finset.sum_le_sum fun idx _ => byteWeight_le_three _
  _ = 3 * im.length := by
        rw [Finset.sum_const, Finset.card_range, smul_eq_mul, Nat.mul_comm]

/-! ## Geometry of the visited windows -/

theorem cell_lt {i j w h : Nat} (hi : i < h) (hj : j < w) : i * w + j < w * h := by
  have h1 : i * w + j < (i + 1) * w := by
    have : (i + 1) * w = i * w + w := by ring
    omega
  have h2 : (i + 1) * w ≤ h * w := Nat.mul_le_mul_right w (by omega)
  calc i * w + j < (i + 1) * w := h1
  _ ≤ h * w := h2
  _ = w * h := Nat.mul_comm h w

theorem mem_zsWindowCells {c : Nat × Nat} {wx wy ww wh w h : Nat}
    (hm : c ∈ zsWindowCells wx wy ww wh w h) :
    (if wy = 0 then 1 else wy) ≤ c.1
    ∧ c.1 < (if wy + wh = h then h - 1 else wy + wh)
    ∧ (if wx = 0 then 1 else wx) ≤ c.2
    ∧ c.2 < (if wx + ww = w then w - 1 else wx + ww) := by
  unfold zsWindowCells at hm
  simp only [List.mem_flatMap, List.mem_map] at hm
  obtain ⟨i, hi, j, hj, hc⟩ := hm
  rw [List.mem_range'_1] at hi hj
  have hc1 : c.1 = i := by rw [← hc]
  have hc2 : c.2 = j := by rw [← hc]
  rw [hc1, hc2]
  omega

theorem zsWindowCells_inside {c : Nat × Nat} {wx wy ww wh w h : Nat}
    (hx : wx + ww ≤ w) (hy : wy + wh ≤ h)
    (hm : c ∈ zsWindowCells wx wy ww wh w h) :
    1 ≤ c.1 ∧ c.1 < h - 1 ∧ 1 ≤ c.2 ∧ c.2 < w - 1 := by
  have := mem_zsWindowCells hm
  constructor
  · by_cases h0 : wy = 0 <;> simp [h0] at this <;> omega
  constructor
  · by_cases h0 : wy + wh = h <;> simp [h0] at this <;> omega
  constructor
  · by_cases h0 : wx = 0 <;> simp [h0] at this <;> omega
  · by_cases h0 : wx + ww = w <;> simp [h0] at this <;> omega

theorem zsWindowCells_bound {wx wy ww wh w h : Nat}
    (hx : wx + ww ≤ w) (hy : wy + wh ≤ h) :
    ∀ c ∈ zsWindowCells wx wy ww wh w h, c.1 * w + c.2 < w * h := by
  intro c hm
  obtain ⟨h1, h2, h3, h4⟩ := zsWindowCells_inside hx hy hm
  exact cell_lt (by omega) (by omega)

/-! ## Iteration-level consequences -/

theorem iteration_markStep (im : List Nat) (wx wy ww wh w h iter : Nat) :
    MarkStep im (thinning_zs_iteration im wx wy ww wh w h iter).1 :=
  markFold_markStep iter w (zsWindowCells wx wy ww wh w h) (im, false)

theorem iteration_length (im : List Nat) (wx wy ww wh w h iter : Nat) :
    (thinning_zs_iteration im wx wy ww wh w h iter).1.length = im.length :=
  markFold_length iter w (zsWindowCells wx wy ww wh w h) (im, false)

/-- A sub-iteration that reports a change has newly set a marker bit,
provided its window lies inside the image and the buffer has the
advertised size. -/
theorem iteration_diff_strict {im : List Nat} {wx wy ww wh w h iter : Nat}
    (hlen : im.length = w * h) (hx : wx + ww ≤ w) (hy : wy + wh ≤ h)
    (hd : (thinning_zs_iteration im wx wy ww wh w h iter).2 = true) :
    ∃ idx < im.length, im.getD idx 0 &&& 2 = 0 ∧
      (thinning_zs_iteration im wx wy ww wh w h iter).1.getD idx 0 &&& 2 ≠ 0 := by
  have hb : ∀ c ∈ zsWindowCells wx wy ww wh w h, c.1 * w + c.2 < im.length := by
    intro c hc
    rw [hlen]
    exact zsWindowCells_bound hx hy c hc
  obtain ⟨_, hval, hdiff⟩ := markFold_char iter w (zsWindowCells wx wy ww wh w h) im false hb
  rcases hdiff.mp hd with hfalse | ⟨c, hm, hcond, hum⟩
  · exact absurd hfalse (by simp)
  · refine ⟨c.1 * w + c.2, hb c hm, hum, ?_⟩
    have := (hval (c.1 * w + c.2)).1 ⟨c, hm, rfl, hcond⟩
    unfold thinning_zs_iteration
    rw [this, or_two_and_two]
    omega

/-! ## Tile geometry -/

theorem mem_tileList {t : Nat × Nat} {ntx nty : Nat} (hm : t ∈ tileList ntx nty) :
    t.1 < nty ∧ t.2 < ntx := by
  unfold tileList at hm
  simp only [List.mem_flatMap, List.mem_map] at hm
  obtain ⟨i, hi, j, hj, hc⟩ := hm
  rw [List.mem_range'_1] at hi hj
  have hc1 : t.1 = i := by rw [← hc]
  have hc2 : t.2 = j := by rw [← hc]
  omega

theorem tile_window_fits {width tw k ntx : Nat} (htw : 1 ≤ tw)
    (hntx : ntx = (width + tw - 1) / tw) (hk : k < ntx) :
    k * tw + min tw (width - k * tw) ≤ width := by
  have hdiv : ntx * tw ≤ width + tw - 1 := by
    rw [hntx]
    exact Nat.div_mul_le_self (width + tw - 1) tw
  have hkk : (k + 1) * tw ≤ ntx * tw := Nat.mul_le_mul_right tw (by omega)
  have hlt : k * tw < width := by
    have : (k + 1) * tw = k * tw + tw := by ring
    omega
  have : min tw (width - k * tw) ≤ width - k * tw := Nat.min_le_right _ _
  omega

/-! ## Driver phases -/

theorem markTile_props {width height tw th ntx nty : Nat} (iter : Nat)
    (htw : 1 ≤ tw) (hth : 1 ≤ th)
    (hntx : ntx = (width + tw - 1) / tw) (hnty : nty = (height + th - 1) / th)
    (st : List Nat × List Nat × Bool) (t : Nat × Nat)
    (hlen : st.1.length = width * height) (ht : t.1 < nty ∧ t.2 < ntx) :
    ((markTile width height tw th ntx nty iter st t).1.length = st.1.length)
    ∧ MarkStep st.1 (markTile width height tw th ntx nty iter st t).1
    ∧ ((markTile width height tw th ntx nty iter st t).2.2 = true →
        st.2.2 = true ∨ ∃ idx < st.1.length, st.1.getD idx 0 &&& 2 = 0 ∧
          (markTile width height tw th ntx nty iter st t).1.getD idx 0 &&& 2 ≠ 0) := by
  unfold markTile
  by_cases hskip : tileSkip st.2.1 ntx nty t.2 t.1 = true
  · rw [if_pos hskip]
    exact ⟨rfl, markStep_refl st.1, fun hd => Or.inl hd⟩
  · rw [if_neg hskip]
    have hfitx : t.2 * tw + min tw (width - t.2 * tw) ≤ width :=
      tile_window_fits htw hntx ht.2
    have hfity : t.1 * th + min th (height - t.1 * th) ≤ height :=
      tile_window_fits hth hnty ht.1
    by_cases hd : (thinning_zs_iteration st.1 (t.2 * tw) (t.1 * th)
        (min tw (width - t.2 * tw)) (min th (height - t.1 * th)) width height iter).2 = true
    · rw [if_pos hd]
      refine ⟨iteration_length _ _ _ _ _ _ _ _, iteration_markStep _ _ _ _ _ _ _ _, fun _ => ?_⟩
      obtain ⟨idx, hidx, hum, hm⟩ := iteration_diff_strict hlen hfitx hfity hd
      exact Or.inr ⟨idx, hidx, hum, hm⟩
    · rw [if_neg hd]
      exact ⟨iteration_length _ _ _ _ _ _ _ _, iteration_markStep _ _ _ _ _ _ _ _,
        fun hd2 => Or.inl hd2⟩

theorem markTileFold_props {width height tw th ntx nty : Nat} (iter : Nat)
    (htw : 1 ≤ tw) (hth : 1 ≤ th)
    (hntx : ntx = (width + tw - 1) / tw) (hnty : nty = (height + th - 1) / th)
    (ts : List (Nat × Nat)) :
    ∀ st : List Nat × List Nat × Bool,
      (∀ t ∈ ts, t.1 < nty ∧ t.2 < ntx) →
      st.1.length = width * height →
      ((ts.foldl (markTile width height tw th ntx nty iter) st).1.length = st.1.length)
      ∧ MarkStep st.1 (ts.foldl (markTile width height tw th ntx nty iter) st).1
      ∧ ((ts.foldl (markTile width height tw th ntx nty iter) st).2.2 = true →
          st.2.2 = true ∨ ∃ idx < st.1.length, st.1.getD idx 0 &&& 2 = 0 ∧
            (ts.foldl (markTile width height tw th ntx nty iter) st).1.getD idx 0 &&& 2 ≠ 0) := by
  induction ts with
  | nil =>
    intro st _ _
    exact ⟨rfl, markStep_refl st.1, fun hd => Or.inl hd⟩
  | cons t ts ih =>
    intro st hts hlen
    have ht : t.1 < nty ∧ t.2 < ntx := hts t (List.mem_cons_self t ts)
    obtain ⟨tlen, tstep, tdiff⟩ :=
      markTile_props iter htw hth hntx hnty st t hlen ht
    have hlen' : (markTile width height tw th ntx nty iter st t).1.length =
        width * height := tlen.trans hlen
    obtain ⟨flen, fstep, fdiff⟩ :=
      ih (markTile width height tw th ntx nty iter st t)
        (fun t' ht' => hts t' (List.mem_cons_of_mem t ht')) hlen'
    have hfold : (t :: ts).foldl (markTile width height tw th ntx nty iter) st =
        ts.foldl (markTile width height tw th ntx nty iter)
          (markTile width height tw th ntx nty iter st t) := rfl
    rw [hfold]
    refine ⟨flen.trans tlen, markStep_trans tstep fstep, fun hd => ?_⟩
    rcases fdiff hd with hd1 | ⟨idx, hidx, hum, hm⟩
    · rcases tdiff hd1 with hd0 | ⟨idx, hidx, hum, hm⟩
      · exact Or.inl hd0
      · exact Or.inr ⟨idx, hidx, hum, markStep_marked fstep hm⟩
    · have hpull := markStep_unmarked_back tstep hum
      refine Or.inr ⟨idx, by omega, ?_, hm⟩
      rw [← hpull]
      exact hum

theorem markPhase_props {width height tw th ntx nty : Nat} (iter : Nat)
    (htw : 1 ≤ tw) (hth : 1 ≤ th)
    (hntx : ntx = (width + tw - 1) / tw) (hnty : nty = (height + th - 1) / th)
    (im flags : List Nat) (hlen : im.length = width * height) :
    ((markPhase width height tw th ntx nty iter im flags).1.length = im.length)
    ∧ MarkStep im (markPhase width height tw th ntx nty iter im flags).1
    ∧ ((markPhase width height tw th ntx nty iter im flags).2.2 = true →
        ∃ idx < im.length, im.getD idx 0 &&& 2 = 0 ∧
          (markPhase width height tw th ntx nty iter im flags).1.getD idx 0 &&& 2 ≠ 0) := by
  obtain ⟨flen, fstep, fdiff⟩ :=
    markTileFold_props iter htw hth hntx hnty (tileList ntx nty) (im, flags, false)
      (fun t ht => mem_tileList ht) hlen
  exact ⟨flen, fstep, fun hd => (fdiff hd).elim (fun hfalse => by simp at hfalse) id⟩

theorem postTileFold_props (width height tw th ntx : Nat) (flags : List Nat)
    (ts : List (Nat × Nat)) :
    ∀ im : List Nat,
      ((ts.foldl (postTile width height tw th ntx flags) im).length = im.length)
      ∧ PostStep im (ts.foldl (postTile width height tw th ntx flags) im) := by
  induction ts with
  | nil => intro im; exact ⟨rfl, postStep_refl im⟩
  | cons t ts ih =>
    intro im
    have hone : (postTile width height tw th ntx flags im t).length = im.length ∧
        PostStep im (postTile width height tw th ntx flags im t) := by
      unfold postTile
      dsimp only
      split
      · exact ⟨rfl, postStep_refl im⟩
      · exact ⟨thinning_zs_post_length _ _ _ _ _ _, thinning_zs_post_postStep _ _ _ _ _ _⟩
    obtain ⟨flen, fstep⟩ := ih (postTile width height tw th ntx flags im t)
    have hfold : (t :: ts).foldl (postTile width height tw th ntx flags) im =
        ts.foldl (postTile width height tw th ntx flags)
          (postTile width height tw th ntx flags im t) := rfl
    rw [hfold]
    refine ⟨flen.trans hone.1, fun idx => ?_⟩
    rcases fstep idx with he | hp
    · rw [he]
      exact hone.2 idx
    · rcases hone.2 idx with he2 | hp2
      · rw [hp, he2]
        exact Or.inr rfl
      · rw [hp, hp2, postFix_idem]
        exact Or.inr rfl

theorem postPhase_props (width height tw th ntx nty : Nat) (im flags : List Nat) :
    ((postPhase width height tw th ntx nty im flags).length = im.length)
    ∧ PostStep im (postPhase width height tw th ntx nty im flags) :=
  postTileFold_props width height tw th ntx flags (tileList ntx nty) im

/-! ## Termination of the tiled driver -/

theorem tiledLoop_isSome {width height tw th ntx nty : Nat}
    (htw : 1 ≤ tw) (hth : 1 ≤ th)
    (hntx : ntx = (width + tw - 1) / tw) (hnty : nty = (height + th - 1) / th) :
    ∀ (fuel : Nat) (im flags : List Nat),
      im.length = width * height → measureM im < fuel →
      (tiledLoop width height tw th ntx nty fuel im flags).isSome = true := by
  intro fuel
  induction fuel with
  | zero => intro im flags _ hm; omega
  | succ f ih =>
    intro im flags hlen hm
    show (tiledLoop width height tw th ntx nty (f + 1) im flags).isSome = true
    unfold tiledLoop
    dsimp only
    obtain ⟨m0len, m0step, m0diff⟩ := markPhase_props 0 htw hth hntx hnty im flags hlen
    by_cases hd0 : (markPhase width height tw th ntx nty 0 im flags).2.2 = true
    · rw [hd0, if_pos rfl]
      set m0 := markPhase width height tw th ntx nty 0 im flags with hm0
      obtain ⟨p1len, p1step⟩ := postPhase_props width height tw th ntx nty m0.1 m0.2.1
      set im1 := postPhase width height tw th ntx nty m0.1 m0.2.1 with him1
      have hlen1 : im1.length = width * height := p1len.trans (m0len.trans hlen)
      obtain ⟨m1len, m1step, m1diff⟩ :=
        markPhase_props 1 htw hth hntx hnty im1 m0.2.1 hlen1
      by_cases hd1 : (markPhase width height tw th ntx nty 1 im1 m0.2.1).2.2 = true
      · rw [hd1, if_pos rfl]
        set m1 := markPhase width height tw th ntx nty 1 im1 m0.2.1 with hm1
        obtain ⟨p2len, p2step⟩ := postPhase_props width height tw th ntx nty m1.1 m1.2.1
        set im2 := postPhase width height tw th ntx nty m1.1 m1.2.1 with him2
        have hlen2 : im2.length = width * height :=
          p2len.trans (m1len.trans hlen1)
        have hstrict : measureM m0.1 < measureM im :=
          measure_lt_of_markStep_strict m0step m0len (m0diff hd0)
        have hle1 : measureM im1 ≤ measureM m0.1 := measure_le_of_postStep p1step p1len
        have hle2 : measureM m1.1 ≤ measureM im1 := measure_le_of_markStep m1step m1len
        have hle3 : measureM im2 ≤ measureM m1.1 := measure_le_of_postStep p2step p2len
        exact ih im2 m1.2.1 hlen2 (by omega)
      · rw [Bool.not_eq_true] at hd1
        rw [hd1, if_neg (by simp)]
        simp
    · rw [Bool.not_eq_true] at hd0
      rw [hd0, if_neg (by simp)]
      simp

/-! ## Further frame helpers -/

theorem rowcol_inj {w i j i2 j2 : Nat} (hj : j < w) (hj2 : j2 < w)
    (he : i * w + j = i2 * w + j2) : i = i2 ∧ j = j2 := by
  have key : ∀ a b a2 b2 : Nat, b < w → b2 < w → a * w + b = a2 * w + b2 →
      a < a2 → False := by
    intro a b a2 b2 hb hb2 heq hlt
    have h1 : a * w + b < (a + 1) * w := by
      have : (a + 1) * w = a * w + w := by ring
      omega
    have h2 : (a + 1) * w ≤ a2 * w := Nat.mul_le_mul_right w (by omega)
    omega
  rcases Nat.lt_trichotomy i i2 with hlt | heq | hgt
  · exact absurd (key i j i2 j2 hj hj2 he hlt) (by simp)
  · constructor
    · exact heq
    · rw [heq] at he
      omega
  · exact absurd (key i2 j2 i j hj2 hj he.symm hgt) (by simp)

theorem mem_postWindowCells_intro {wx wy ww wh i j : Nat}
    (hi1 : wy ≤ i) (hi2 : i < wy + wh) (hj1 : wx ≤ j) (hj2 : j < wx + ww) :
    ((i, j) : Nat × Nat) ∈ postWindowCells wx wy ww wh := by
  unfold postWindowCells
  simp only [List.mem_flatMap, List.mem_map]
  refine ⟨i, ?_, j, ?_, rfl⟩
  · rw [List.mem_range'_1]
    omega
  · rw [List.mem_range'_1]
    omega

/-! ## Claim C1 -/

/-- C1 (code_bug evidence): on the 3x3 buffer with foreground at
linear indices 5 and 8 — all bytes in `{0,1}`, length = 3·3 — the tiled
entry point returns a buffer whose byte at index 4 is 2: the `// BUG!`
marking of the background centre pixel is never committed by the
post-pass, so a marker bit survives and the buffer is not all `{0,1}`. -/
theorem c1_tiled_leaves_marker_byte :
    thinning_zs_tiled [0, 0, 0, 0, 0, 1, 0, 0, 1] 3 3 3 3 =
      some [0, 0, 0, 0, 2, 1, 0, 0, 1] ∧ ¬ ((2 : Nat) = 0 ∨ (2 : Nat) = 1) := by
  decide

/-! ## Claim C2 -/

/-- C2 (code_bug evidence): `thinning_zs_iteration` marks the centre
pixel of this 3x3 window although its `p1` foreground bit is 0, because
the `p1 == 1` conjunct is commented out in the source (`// BUG!`); the
claim requires `p1 = 1` for a pixel to be marked. -/
theorem c2_background_pixel_marked :
    thinning_zs_iteration [0, 0, 0, 0, 0, 1, 0, 0, 1] 0 0 3 3 3 3 0 =
      ([0, 0, 0, 0, 2, 1, 0, 0, 1], true)
    ∧ ([0, 0, 0, 0, 0, 1, 0, 0, 1].getD 4 0) &&& 1 = 0
    ∧ ([0, 0, 0, 0, 2, 1, 0, 0, 1].getD 4 0) &&& 2 ≠ 0 := by
  decide

/-! ## Claim C3 -/

/-- C3 (counterexample): a byte equal to 2 (marker set, foreground
clear) is left unchanged by `thinning_zs_post` because the guarded
write compares the new value only against the masked foreground bit;
the claim demands the byte become `(2 &&& 1) &&& ~((2 >>> 1) &&& 1) = 0`. -/
theorem c3_post_keeps_marked_background :
    (thinning_zs_post [2] 0 0 1 1 1).getD 0 0 = 2 ∧
      ((2 : Nat) &&& 1) &&& (1 - (((2 : Nat) >>> 1) &&& 1)) = 0 := by
  decide

/-- C3 (amended): over the window, `thinning_zs_post` maps each byte to
0 when both its low bits are set and leaves it unchanged otherwise; in
particular bytes entering in `{0,1,3}` leave in `{0,1}` with the marker
cleared, but a marked background byte (value 2) keeps its marker and
upper bits are not zeroed. -/
theorem c3_post_byte_char (im : List Nat) (wx wy ww wh w i j : Nat)
    (hi1 : wy ≤ i) (hi2 : i < wy + wh) (hj1 : wx ≤ j) (hj2 : j < wx + ww) :
    (thinning_zs_post im wx wy ww wh w).getD (i * w + j) 0 =
      if im.getD (i * w + j) 0 % 2 = 1 ∧ im.getD (i * w + j) 0 / 2 % 2 = 1
      then 0 else im.getD (i * w + j) 0 := by
  obtain ⟨_, hval⟩ := postFold_char w (postWindowCells wx wy ww wh) im
  unfold thinning_zs_post
  rw [hval (i * w + j),
    if_pos ⟨(i, j), mem_postWindowCells_intro hi1 hi2 hj1 hj2, rfl⟩]
  rfl

theorem c3_post_byte_char_witness :
    ((0 : Nat) ≤ 0 ∧ (0 : Nat) < 0 + 1 ∧ (0 : Nat) ≤ 0 ∧ (0 : Nat) < 0 + 1)
    ∧ (thinning_zs_post [3] 0 0 1 1 1).getD (0 * 1 + 0) 0 =
        (if [3].getD (0 * 1 + 0) 0 % 2 = 1 ∧ [3].getD (0 * 1 + 0) 0 / 2 % 2 = 1
         then 0 else [3].getD (0 * 1 + 0) 0) :=
  ⟨by decide,
    c3_post_byte_char [3] 0 0 1 1 1 0 0 (by decide) (by decide) (by decide) (by decide)⟩

/-! ## Claim C4 -/

set_option maxRecDepth 40000 in
/-- C4 (code_bug evidence): on this 6x6 buffer of `{0,1}` bytes, the
non-tiled reference `thinning_zs` and the tiled driver with 3x3 tiles
(tile size ≥ 3) return different buffers: the tiled run skips tiles
whose flags were cleared by the other sub-iteration and misses marker
bits that the reference sets, so the results differ byte-for-byte at
indices 9 and 15. -/
theorem c4_tiled_differs_from_reference :
    thinning_zs
        [0, 0, 0, 0, 0, 0, 0, 1, 1, 0, 1, 0, 0, 1, 0, 0, 1, 0,
         0, 0, 0, 0, 0, 0, 0, 0, 0, 0, 0, 0, 0, 0, 0, 0, 0, 0] 6 6 =
      some [0, 0, 0, 0, 0, 0, 0, 1, 0, 2, 1, 0, 0, 0, 2, 2, 1, 0,
            0, 0, 0, 0, 0, 0, 0, 0, 0, 0, 0, 0, 0, 0, 0, 0, 0, 0]
    ∧ thinning_zs_tiled
        [0, 0, 0, 0, 0, 0, 0, 1, 1, 0, 1, 0, 0, 1, 0, 0, 1, 0,
         0, 0, 0, 0, 0, 0, 0, 0, 0, 0, 0, 0, 0, 0, 0, 0, 0, 0] 6 6 3 3 =
      some [0, 0, 0, 0, 0, 0, 0, 1, 0, 0, 1, 0, 0, 0, 2, 0, 1, 0,
            0, 0, 0, 0, 0, 0, 0, 0, 0, 0, 0, 0, 0, 0, 0, 0, 0, 0]
    ∧ ([0, 0, 0, 0, 0, 0, 0, 1, 0, 2, 1, 0, 0, 0, 2, 2, 1, 0,
        0, 0, 0, 0, 0, 0, 0, 0, 0, 0, 0, 0, 0, 0, 0, 0, 0, 0] :
        List Nat) ≠
      [0, 0, 0, 0, 0, 0, 0, 1, 0, 0, 1, 0, 0, 0, 2, 0, 1, 0,
       0, 0, 0, 0, 0, 0, 0, 0, 0, 0, 0, 0, 0, 0, 0, 0, 0, 0] := by
  decide

/-! ## Claim C5 -/

set_option maxRecDepth 40000 in
/-- C5 (code_bug evidence): running the tiled driver twice is not
idempotent: the first run on this 6x6 buffer produces a fixpoint-like
buffer `c`, but a second run on `c` newly marks the background pixel at
index 15 (byte 0 becomes 2), so the second call mutates the buffer. -/
theorem c5_second_run_mutates :
    thinning_zs_tiled
        [0, 0, 0, 0, 0, 0, 0, 0, 1, 1, 1, 0, 0, 1, 1, 0, 1, 0,
         0, 1, 1, 0, 1, 0, 0, 1, 0, 0, 0, 0, 0, 0, 0, 0, 0, 0] 6 6 6 6 =
      some [0, 0, 0, 0, 0, 0, 0, 2, 1, 1, 1, 0, 0, 0, 1, 0, 1, 0,
            0, 1, 0, 0, 1, 0, 0, 0, 2, 0, 0, 0, 0, 0, 0, 0, 0, 0]
    ∧ thinning_zs_tiled
        [0, 0, 0, 0, 0, 0, 0, 2, 1, 1, 1, 0, 0, 0, 1, 0, 1, 0,
         0, 1, 0, 0, 1, 0, 0, 0, 2, 0, 0, 0, 0, 0, 0, 0, 0, 0] 6 6 6 6 =
      some [0, 0, 0, 0, 0, 0, 0, 2, 1, 1, 1, 0, 0, 0, 1, 2, 1, 0,
            0, 1, 0, 0, 1, 0, 0, 0, 2, 0, 0, 0, 0, 0, 0, 0, 0, 0]
    ∧ ([0, 0, 0, 0, 0, 0, 0, 2, 1, 1, 1, 0, 0, 0, 1, 2, 1, 0,
        0, 1, 0, 0, 1, 0, 0, 0, 2, 0, 0, 0, 0, 0, 0, 0, 0, 0] :
        List Nat) ≠
      [0, 0, 0, 0, 0, 0, 0, 2, 1, 1, 1, 0, 0, 0, 1, 0, 1, 0,
       0, 1, 0, 0, 1, 0, 0, 0, 2, 0, 0, 0, 0, 0, 0, 0, 0, 0] := by
  decide

/-! ## Claim C6 -/

/-- C6: the tiled driver terminates on every buffer of the advertised
size and every positive tile size: the fuelled embedding, whose only
`some` exits are the two breaks taken when a MARK phase reports no
change, never exhausts its fuel, because every continued round newly
sets at least one marker bit and the measure `2·foreground+(1−marker)`
strictly decreases. -/
theorem c6_tiled_terminates (im : List Nat) (width height tw th : Nat)
    (hlen : im.length = width * height) (htw : 1 ≤ tw) (hth : 1 ≤ th) :
    (thinning_zs_tiled im width height tw th).isSome = true := by
  unfold thinning_zs_tiled
  dsimp only
  refine tiledLoop_isSome htw hth rfl rfl (3 * im.length + 1) im _ hlen ?_
  have := measure_le_three_mul im
  omega

theorem c6_tiled_terminates_witness :
    (([0, 0, 0, 0] : List Nat).length = 2 * 2 ∧ 1 ≤ 1 ∧ 1 ≤ 1)
    ∧ (thinning_zs_tiled [0, 0, 0, 0] 2 2 1 1).isSome = true :=
  ⟨by decide, c6_tiled_terminates [0, 0, 0, 0] 2 2 1 1 (by decide) (by decide) (by decide)⟩

/-! ## Claim C7 -/

/-- C7: a sub-iteration whose window lies inside a buffer of the
advertised size returns `true` exactly when it set a marker bit that
was clear on entry; when every pixel it would mark already carries the
marker it returns `false` and leaves the buffer unchanged. -/
theorem c7_diff_iff_new_marker (im : List Nat) (wx wy ww wh w h iter : Nat)
    (hlen : im.length = w * h) (hx : wx + ww ≤ w) (hy : wy + wh ≤ h) :
    ((thinning_zs_iteration im wx wy ww wh w h iter).2 = true ↔
      ∃ idx, im.getD idx 0 &&& 2 = 0 ∧
        (thinning_zs_iteration im wx wy ww wh w h iter).1.getD idx 0 &&& 2 ≠ 0) := by
  have hb : ∀ c ∈ zsWindowCells wx wy ww wh w h, c.1 * w + c.2 < im.length := by
    intro c hc
    rw [hlen]
    exact zsWindowCells_bound hx hy c hc
  constructor
  · intro hd
    obtain ⟨idx, _, hum, hm⟩ := iteration_diff_strict hlen hx hy hd
    exact ⟨idx, hum, hm⟩
  · rintro ⟨idx, hum, hm⟩
    obtain ⟨_, hval, hdiff⟩ := markFold_char iter w (zsWindowCells wx wy ww wh w h) im false hb
    by_cases hhit : ∃ c ∈ zsWindowCells wx wy ww wh w h,
        idx = c.1 * w + c.2 ∧ zsCond im w c.1 c.2 iter = true
    · obtain ⟨c, hcm, hci, hcc⟩ := hhit
      refine hdiff.mpr (Or.inr ⟨c, hcm, hcc, ?_⟩)
      rw [← hci]
      exact hum
    · have := (hval idx).2 hhit
      unfold thinning_zs_iteration at hm
      rw [this] at hm
      exact absurd hum hm

theorem c7_diff_iff_new_marker_witness :
    (([0, 0, 0, 0, 0, 1, 0, 0, 1] : List Nat).length = 3 * 3 ∧ 0 + 3 ≤ 3 ∧ 0 + 3 ≤ 3)
    ∧ ((thinning_zs_iteration [0, 0, 0, 0, 0, 1, 0, 0, 1] 0 0 3 3 3 3 0).2 = true ↔
        ∃ idx, ([0, 0, 0, 0, 0, 1, 0, 0, 1] : List Nat).getD idx 0 &&& 2 = 0 ∧
          (thinning_zs_iteration [0, 0, 0, 0, 0, 1, 0, 0, 1] 0 0 3 3 3 3 0).1.getD idx 0 &&& 2 ≠ 0) :=
  ⟨by decide,
    c7_diff_iff_new_marker [0, 0, 0, 0, 0, 1, 0, 0, 1] 0 0 3 3 3 3 0
      (by decide) (by decide) (by decide)⟩

/-! ## Claim C8 -/

/-- C8: on a buffer of the advertised size with the window inside the
image, a sub-iteration leaves every byte outside the clamped range
`[max(win_y,1), min(win_y+win_h, h-1)) x [max(win_x,1), min(win_x+win_w, w-1))`
untouched; inside it, a byte either stays the same or has only its
marker bit newly set (bit 0 and the bits above bit 1 are preserved),
and the global one-pixel border is never modified. -/
theorem c8_iteration_frame (im : List Nat) (wx wy ww wh w h iter i j : Nat)
    (hlen : im.length = w * h) (hx : wx + ww ≤ w) (hy : wy + wh ≤ h)
    (hi : i < h) (hj : j < w) :
    ((¬ (max wy 1 ≤ i ∧ i < min (wy + wh) (h - 1) ∧
          max wx 1 ≤ j ∧ j < min (wx + ww) (w - 1))) →
      (thinning_zs_iteration im wx wy ww wh w h iter).1.getD (i * w + j) 0 =
        im.getD (i * w + j) 0)
    ∧ ((thinning_zs_iteration im wx wy ww wh w h iter).1.getD (i * w + j) 0 =
          im.getD (i * w + j) 0 ∨
        (thinning_zs_iteration im wx wy ww wh w h iter).1.getD (i * w + j) 0 =
          im.getD (i * w + j) 0 ||| 2)
    ∧ (thinning_zs_iteration im wx wy ww wh w h iter).1.getD (i * w + j) 0 % 2 =
        im.getD (i * w + j) 0 % 2
    ∧ (thinning_zs_iteration im wx wy ww wh w h iter).1.getD (i * w + j) 0 >>> 2 =
        im.getD (i * w + j) 0 >>> 2
    ∧ ((i = 0 ∨ i = h - 1 ∨ j = 0 ∨ j = w - 1) →
        (thinning_zs_iteration im wx wy ww wh w h iter).1.getD (i * w + j) 0 =
          im.getD (i * w + j) 0) := by
  have hb : ∀ c ∈ zsWindowCells wx wy ww wh w h, c.1 * w + c.2 < im.length := by
    intro c hc
    rw [hlen]
    exact zsWindowCells_bound hx hy c hc
  obtain ⟨_, hval, _⟩ := markFold_char iter w (zsWindowCells wx wy ww wh w h) im false hb
  have hframe : ¬ (max wy 1 ≤ i ∧ i < min (wy + wh) (h - 1) ∧
      max wx 1 ≤ j ∧ j < min (wx + ww) (w - 1)) →
      (thinning_zs_iteration im wx wy ww wh w h iter).1.getD (i * w + j) 0 =
        im.getD (i * w + j) 0 := by
    intro hout
    have hnohit : ¬ ∃ c ∈ zsWindowCells wx wy ww wh w h,
        i * w + j = c.1 * w + c.2 ∧ zsCond im w c.1 c.2 iter = true := by
      rintro ⟨c, hcm, hci, _⟩
      have hmem := mem_zsWindowCells hcm
      have hins := zsWindowCells_inside hx hy hcm
      obtain ⟨hie, hje⟩ := rowcol_inj hj (by omega) hci
      refine hout ?_
      rw [hie, hje]
      constructor
      · by_cases h0 : wy = 0 <;> simp [h0] at hmem <;> omega
      constructor
      · by_cases h0 : wy + wh = h <;> simp [h0] at hmem <;> omega
      constructor
      · by_cases h0 : wx = 0 <;> simp [h0] at hmem <;> omega
      · by_cases h0 : wx + ww = w <;> simp [h0] at hmem <;> omega
    exact (hval (i * w + j)).2 hnohit
  have hdisj := iteration_markStep im wx wy ww wh w h iter (i * w + j)
  have hor : (thinning_zs_iteration im wx wy ww wh w h iter).1.getD (i * w + j) 0 =
      im.getD (i * w + j) 0 ∨
      (thinning_zs_iteration im wx wy ww wh w h iter).1.getD (i * w + j) 0 =
      im.getD (i * w + j) 0 ||| 2 := by
    rcases hdisj with he | ⟨ho, _⟩
    · exact Or.inl he
    · exact Or.inr ho
  refine ⟨hframe, hor, ?_, ?_, ?_⟩
  · rcases hor with he | ho
    · rw [he]
    · rw [ho, or_two_mod_two]
  · rcases hor with he | ho
    · rw [he]
    · rw [ho, or_two_shiftRight_two]
  · intro hborder
    refine hframe ?_
    rintro ⟨h1, h2, h3, h4⟩
    rcases hborder with hb0 | hb0 | hb0 | hb0 <;> omega

theorem c8_iteration_frame_witness :
    (([0, 0, 0, 0, 0, 1, 0, 0, 1] : List Nat).length = 3 * 3 ∧
      0 + 3 ≤ 3 ∧ 0 + 3 ≤ 3 ∧ 0 < 3 ∧ 0 < 3)
    ∧ ((¬ (max 0 1 ≤ 0 ∧ 0 < min (0 + 3) (3 - 1) ∧
          max 0 1 ≤ 0 ∧ 0 < min (0 + 3) (3 - 1))) →
        (thinning_zs_iteration [0, 0, 0, 0, 0, 1, 0, 0, 1] 0 0 3 3 3 3 0).1.getD (0 * 3 + 0) 0 =
          ([0, 0, 0, 0, 0, 1, 0, 0, 1] : List Nat).getD (0 * 3 + 0) 0)
      ∧ ((thinning_zs_iteration [0, 0, 0, 0, 0, 1, 0, 0, 1] 0 0 3 3 3 3 0).1.getD (0 * 3 + 0) 0 =
            ([0, 0, 0, 0, 0, 1, 0, 0, 1] : List Nat).getD (0 * 3 + 0) 0 ∨
          (thinning_zs_iteration [0, 0, 0, 0, 0, 1, 0, 0, 1] 0 0 3 3 3 3 0).1.getD (0 * 3 + 0) 0 =
            ([0, 0, 0, 0, 0, 1, 0, 0, 1] : List Nat).getD (0 * 3 + 0) 0 ||| 2)
      ∧ (thinning_zs_iteration [0, 0, 0, 0, 0, 1, 0, 0, 1] 0 0 3 3 3 3 0).1.getD (0 * 3 + 0) 0 % 2 =
          ([0, 0, 0, 0, 0, 1, 0, 0, 1] : List Nat).getD (0 * 3 + 0) 0 % 2
      ∧ (thinning_zs_iteration [0, 0, 0, 0, 0, 1, 0, 0, 1] 0 0 3 3 3 3 0).1.getD (0 * 3 + 0) 0 >>> 2 =
          ([0, 0, 0, 0, 0, 1, 0, 0, 1] : List Nat).getD (0 * 3 + 0) 0 >>> 2
      ∧ ((0 = 0 ∨ 0 = 3 - 1 ∨ 0 = 0 ∨ 0 = 3 - 1) →
          (thinning_zs_iteration [0, 0, 0, 0, 0, 1, 0, 0, 1] 0 0 3 3 3 3 0).1.getD (0 * 3 + 0) 0 =
            ([0, 0, 0, 0, 0, 1, 0, 0, 1] : List Nat).getD (0 * 3 + 0) 0) :=
  ⟨by decide,
    c8_iteration_frame [0, 0, 0, 0, 0, 1, 0, 0, 1] 0 0 3 3 3 3 0 0 0
      (by decide) (by decide) (by decide) (by decide) (by decide)⟩

/-! ## Claim C9: helper lemmas -/

theorem boundaryCoord_mem {x y w h k : Nat} (hw : 1 ≤ w) (hh1 : 1 ≤ h)
    (hk : k < h + h + w + w - 4) :
    y ≤ (boundaryCoord x y w h k).1 ∧ (boundaryCoord x y w h k).1 < y + h
    ∧ x ≤ (boundaryCoord x y w h k).2 ∧ (boundaryCoord x y w h k).2 < x + w := by
  unfold boundaryCoord
  dsimp only
  split_ifs <;> omega

theorem chunkWalk_all_zero {im : List Nat} {ww x y w h : Nat}
    (hw : 1 ≤ w) (hh1 : 1 ≤ h)
    (hz : ∀ i j, y ≤ i → i < y + h → x ≤ j → j < x + w →
      im.getD (i * ww + j) 0 = 0) :
    ∀ ks : List Nat, (∀ k ∈ ks, k < h + h + w + w - 4) →
    ∀ li lj : Nat,
      (ks.foldl (chunkWalkStep im ww x y w h) ([], false, li, lj)).1 = []
      ∧ (ks.foldl (chunkWalkStep im ww x y w h) ([], false, li, lj)).2.1 = false := by
  intro ks
  induction ks with
  | nil => intro _ li lj; exact ⟨rfl, rfl⟩
  | cons k ks ih =>
    intro hks li lj
    have hkb := hks k (List.mem_cons_self k ks)
    obtain ⟨h1, h2, h3, h4⟩ := boundaryCoord_mem hw hh1 hkb
    have hzero : im.getD ((boundaryCoord x y w h k).1 * ww + (boundaryCoord x y w h k).2) 0 = 0 :=
      hz _ _ h1 h2 h3 h4
    have hstep : chunkWalkStep im ww x y w h ([], false, li, lj) k =
        ([], false, (boundaryCoord x y w h k).1, (boundaryCoord x y w h k).2) := by
      unfold chunkWalkStep
      dsimp only
      rw [if_neg (by rw [hzero]; exact fun hne => hne rfl)]
      rfl
    have hfold : (k :: ks).foldl (chunkWalkStep im ww x y w h) ([], false, li, lj) =
        ks.foldl (chunkWalkStep im ww x y w h)
          (chunkWalkStep im ww x y w h ([], false, li, lj) k) := rfl
    rw [hfold, hstep]
    exact ih (fun k' hk' => hks k' (List.mem_cons_of_mem k hk')) _ _

theorem chunk_to_frags_all_zero {im : List Nat} {ww hh x y w h : Nat}
    (hw : 1 ≤ w) (hh1 : 1 ≤ h)
    (hz : ∀ i j, y ≤ i → i < y + h → x ≤ j → j < x + w →
      im.getD (i * ww + j) 0 = 0) :
    chunk_to_frags im ww hh x y w h = [] := by
  unfold chunk_to_frags
  have hks : ∀ k ∈ List.range (h + h + w + w - 4), k < h + h + w + w - 4 :=
    fun k hk => List.mem_range.mp hk
  obtain ⟨hfr, _⟩ := chunkWalk_all_zero hw hh1 hz (List.range (h + h + w + w - 4)) hks 0 0
  dsimp only
  rw [hfr]
  rfl

theorem not_empty_all_zero {im : List Nat} {ww hh x y w h : Nat}
    (hz : ∀ i j, y ≤ i → i < y + h → x ≤ j → j < x + w →
      im.getD (i * ww + j) 0 = 0) :
    not_empty im ww hh x y w h = false := by
  unfold not_empty
  rw [List.any_eq_false]
  intro c hc
  simp only [List.mem_flatMap, List.mem_map] at hc
  obtain ⟨i, hi, j, hj, hcij⟩ := hc
  rw [List.mem_range'_1] at hi hj
  have hc1 : c.1 = i := by rw [← hcij]
  have hc2 : c.2 = j := by rw [← hcij]
  rw [hc1, hc2, hz i j (by omega) (by omega) (by omega) (by omega)]
  simp

theorem hSeamFold_range (im : List Nat) (ww x y w h : Nat) :
    ∀ ks : List Nat, (∀ i ∈ ks, y + 3 ≤ i ∧ i < y + h - 3) →
    ∀ st : Nat × Int,
      (st.2 = -1 ∨ ((y : Int) + 3 ≤ st.2 ∧ st.2 < (y : Int) + (h : Int) - 3)) →
      ((ks.foldl (hSeamStep im ww x y w h) st).2 = -1 ∨
        ((y : Int) + 3 ≤ (ks.foldl (hSeamStep im ww x y w h) st).2 ∧
          (ks.foldl (hSeamStep im ww x y w h) st).2 < (y : Int) + (h : Int) - 3)) := by
  intro ks
  induction ks with
  | nil => intro _ st hst; exact hst
  | cons k ks ih =>
    intro hks st hst
    have hkb := hks k (List.mem_cons_self k ks)
    refine ih (fun k' hk' => hks k' (List.mem_cons_of_mem k hk'))
      (hSeamStep im ww x y w h st k) ?_
    unfold hSeamStep
    dsimp only
    split_ifs with hb hs hts
    · exact hst
    · refine Or.inr ⟨?_, ?_⟩ <;> simp <;> omega
    · refine Or.inr ⟨?_, ?_⟩ <;> simp <;> omega
    · exact hst

theorem vSeamFold_range (im : List Nat) (ww x y w h : Nat) :
    ∀ ks : List Nat, (∀ j ∈ ks, x + 3 ≤ j ∧ j < x + w - 3) →
    ∀ st : Nat × Int × Int,
      (st.2.1 = -1 ∨ ((y : Int) + 3 ≤ st.2.1 ∧ st.2.1 < (y : Int) + (h : Int) - 3)) →
      (st.2.2 = -1 ∨ ((x : Int) + 3 ≤ st.2.2 ∧ st.2.2 < (x : Int) + (w : Int) - 3)) →
      (((ks.foldl (vSeamStep im ww x y w h) st).2.1 = -1 ∨
          ((y : Int) + 3 ≤ (ks.foldl (vSeamStep im ww x y w h) st).2.1 ∧
            (ks.foldl (vSeamStep im ww x y w h) st).2.1 < (y : Int) + (h : Int) - 3))
        ∧ ((ks.foldl (vSeamStep im ww x y w h) st).2.2 = -1 ∨
            ((x : Int) + 3 ≤ (ks.foldl (vSeamStep im ww x y w h) st).2.2 ∧
              (ks.foldl (vSeamStep im ww x y w h) st).2.2 < (x : Int) + (w : Int) - 3))) := by
  intro ks
  induction ks with
  | nil => intro _ st hmi hmj; exact ⟨hmi, hmj⟩
  | cons k ks ih =>
    intro hks st hmi hmj
    have hkb := hks k (List.mem_cons_self k ks)
    refine ih (fun k' hk' => hks k' (List.mem_cons_of_mem k hk'))
      (vSeamStep im ww x y w h st k) ?_ ?_ <;>
    · unfold vSeamStep
      dsimp only
      split_ifs with hb hs hts
      · first | exact hmi | exact hmj
      · first
          | exact Or.inl rfl
          | refine Or.inr ⟨?_, ?_⟩ <;> simp <;> omega
      · first
          | exact Or.inl rfl
          | refine Or.inr ⟨?_, ?_⟩ <;> simp <;> omega
      · first | exact hmi | exact hmj

/-- Tail of one unfolding of `trace_skeleton` on an all-background
region: whatever seam the selection produced (constrained to the ranges
the seam loops can generate), the result is the empty fragment list. -/
theorem c9_core (im : List Nat) (ww hh x y w h cs m : Nat)
    (_hw : 1 ≤ w) (_hh1 : 1 ≤ h)
    (hz : ∀ i j, y ≤ i → i < y + h → x ≤ j → j < x + w →
      im.getD (i * ww + j) 0 = 0)
    (hchunk : chunk_to_frags im ww hh x y w h = [])
    (mi mj : Int)
    (hmi : mi = -1 ∨ ((y : Int) + 3 ≤ mi ∧ mi < (y : Int) + (h : Int) - 3))
    (hmj : mj = -1 ∨ ((x : Int) + 3 ≤ mj ∧ mj < (x : Int) + (w : Int) - 3)) :
    (if mi = -1 ∧ mj = -1 then chunk_to_frags im ww hh x y w h
     else
       if h > cs ∧ mi ≠ -1 then
         if not_empty im ww hh x mi.toNat w ((y : Int) + (h : Int) - mi).toNat then
           merge_frags
             (if not_empty im ww hh x y w (mi - (y : Int)).toNat then
                merge_frags [] (trace_skeleton im ww hh x y w (mi - (y : Int)).toNat cs m)
                  mi.toNat VERTICAL
              else [])
             (trace_skeleton im ww hh x mi.toNat w ((y : Int) + (h : Int) - mi).toNat cs m)
             mi.toNat VERTICAL
         else
           if not_empty im ww hh x y w (mi - (y : Int)).toNat then
             merge_frags [] (trace_skeleton im ww hh x y w (mi - (y : Int)).toNat cs m)
               mi.toNat VERTICAL
           else []
       else if w > cs ∧ mj ≠ -1 then
         if not_empty im ww hh mj.toNat y ((x : Int) + (w : Int) - mj).toNat h then
           merge_frags
             (if not_empty im ww hh x y (mj - (x : Int)).toNat h then
                merge_frags [] (trace_skeleton im ww hh x y (mj - (x : Int)).toNat h cs m)
                  mj.toNat HORIZONTAL
              else [])
             (trace_skeleton im ww hh mj.toNat y ((x : Int) + (w : Int) - mj).toNat h cs m)
             mj.toNat HORIZONTAL
         else
           if not_empty im ww hh x y (mj - (x : Int)).toNat h then
             merge_frags [] (trace_skeleton im ww hh x y (mj - (x : Int)).toNat h cs m)
               mj.toNat HORIZONTAL
           else []
       else []) = [] := by
  by_cases hend : mi = -1 ∧ mj = -1
  · rw [if_pos hend]
    exact hchunk
  · rw [if_neg hend]
    by_cases hA : h > cs ∧ mi ≠ -1
    · rw [if_pos hA]
      have hbnd : (y : Int) + 3 ≤ mi ∧ mi < (y : Int) + (h : Int) - 3 :=
        hmi.resolve_left hA.2
      have hne1 : not_empty im ww hh x y w (mi - (y : Int)).toNat = false :=
        not_empty_all_zero fun i j hi1 hi2 hj1 hj2 =>
          hz i j hi1 (by omega) hj1 hj2
      have hne2 : not_empty im ww hh x mi.toNat w
          ((y : Int) + (h : Int) - mi).toNat = false :=
        not_empty_all_zero fun i j hi1 hi2 hj1 hj2 =>
          hz i j (by omega) (by omega) hj1 hj2
      rw [hne1, hne2]
      simp
    · rw [if_neg hA]
      by_cases hB : w > cs ∧ mj ≠ -1
      · rw [if_pos hB]
        have hbnd : (x : Int) + 3 ≤ mj ∧ mj < (x : Int) + (w : Int) - 3 :=
          hmj.resolve_left hB.2
        have hne1 : not_empty im ww hh x y (mj - (x : Int)).toNat h = false :=
          not_empty_all_zero fun i j hi1 hi2 hj1 hj2 =>
            hz i j hi1 hi2 hj1 (by omega)
        have hne2 : not_empty im ww hh mj.toNat y
            ((x : Int) + (w : Int) - mj).toNat h = false :=
          not_empty_all_zero fun i j hi1 hi2 hj1 hj2 =>
            hz i j hi1 hi2 (by omega) (by omega)
        rw [hne1, hne2]
        simp
      · rw [if_neg hB]

/-! ## Claim C9 -/

/-- C9 (counterexample): the 3x3 region of a 3x3 image whose only
foreground pixel is the interior centre contains foreground, yet
`trace_skeleton` with `chunk_size = 3` and `max_iter = 999` returns an
empty fragment list (the boundary walk of the leaf chunk sees no
foreground), so "empty iff no foreground" fails in the
only-if direction. -/
theorem c9_foreground_but_empty :
    trace_skeleton [0, 0, 0, 0, 1, 0, 0, 0, 0] 3 3 0 0 3 3 3 999 = []
    ∧ ([0, 0, 0, 0, 1, 0, 0, 0, 0] : List Nat).getD (1 * 3 + 1) 0 ≠ 0 := by
  constructor
  · rfl
  · decide

/-- C9 (amended): the direction that survives: if every pixel of the
(nonempty) region is background then `trace_skeleton` returns the empty
fragment list, for every chunk size and recursion budget. -/
theorem c9_no_foreground_empty (im : List Nat) (ww hh x y w h cs n : Nat)
    (hw : 1 ≤ w) (hh1 : 1 ≤ h)
    (hz : ∀ i j, y ≤ i → i < y + h → x ≤ j → j < x + w →
      im.getD (i * ww + j) 0 = 0) :
    trace_skeleton im ww hh x y w h cs n = [] := by
  cases n with
  | zero => rfl
  | succ m =>
    have hchunk : chunk_to_frags im ww hh x y w h = [] :=
      chunk_to_frags_all_zero hw hh1 hz
    have hmemh : ∀ i ∈ List.range' (y + 3) (y + h - 3 - (y + 3)),
        y + 3 ≤ i ∧ i < y + h - 3 := by
      intro i hi
      rw [List.mem_range'_1] at hi
      omega
    have hmemv : ∀ j ∈ List.range' (x + 3) (x + w - 3 - (x + 3)),
        x + 3 ≤ j ∧ j < x + w - 3 := by
      intro j hj
      rw [List.mem_range'_1] at hj
      omega
    simp only [trace_skeleton]
    by_cases hleaf : w ≤ cs ∧ h ≤ cs
    · rw [if_pos hleaf]
      exact hchunk
    · rw [if_neg hleaf]
      by_cases hh2 : h > cs
      · rw [if_pos hh2]
        have hmi1 := hSeamFold_range im ww x y w h
          (List.range' (y + 3) (y + h - 3 - (y + 3))) hmemh
          (ww + hh, -1) (Or.inl rfl)
        by_cases hw2 : w > cs
        · rw [if_pos hw2]
          obtain ⟨hmi, hmj⟩ := vSeamFold_range im ww x y w h
            (List.range' (x + 3) (x + w - 3 - (x + 3))) hmemv
            (((List.range' (y + 3) (y + h - 3 - (y + 3))).foldl
                (hSeamStep im ww x y w h) (ww + hh, -1)).1,
              ((List.range' (y + 3) (y + h - 3 - (y + 3))).foldl
                (hSeamStep im ww x y w h) (ww + hh, -1)).2, -1)
            hmi1 (Or.inl rfl)
          exact c9_core im ww hh x y w h cs m hw hh1 hz hchunk _ _ hmi hmj
        · rw [if_neg hw2]
          exact c9_core im ww hh x y w h cs m hw hh1 hz hchunk _ _ hmi1 (Or.inl rfl)
      · rw [if_neg hh2]
        by_cases hw2 : w > cs
        · rw [if_pos hw2]
          obtain ⟨hmi, hmj⟩ := vSeamFold_range im ww x y w h
            (List.range' (x + 3) (x + w - 3 - (x + 3))) hmemv
            (((ww + hh : Nat), (-1 : Int)).1, ((ww + hh : Nat), (-1 : Int)).2, -1)
            (Or.inl rfl) (Or.inl rfl)
          exact c9_core im ww hh x y w h cs m hw hh1 hz hchunk _ _ hmi hmj
        · rw [if_neg hw2]
          exact c9_core im ww hh x y w h cs m hw hh1 hz hchunk _ _
            (Or.inl rfl) (Or.inl rfl)

theorem c9_no_foreground_empty_witness :
    (1 ≤ 3 ∧ 1 ≤ 3 ∧ ∀ i j : Nat, 0 ≤ i → i < 0 + 3 → 0 ≤ j → j < 0 + 3 →
      ([0, 0, 0, 0, 0, 0, 0, 0, 0] : List Nat).getD (i * 3 + j) 0 = 0)
    ∧ trace_skeleton [0, 0, 0, 0, 0, 0, 0, 0, 0] 3 3 0 0 3 3 3 999 = [] :=
  ⟨⟨by decide, by decide,
      by intro i j _ hi _ hj; interval_cases i <;> interval_cases j <;> rfl⟩,
    c9_no_foreground_empty [0, 0, 0, 0, 0, 0, 0, 0, 0] 3 3 0 0 3 3 3 999
      (by decide) (by decide)
      (by intro i j _ hi _ hj; interval_cases i <;> interval_cases j <;> rfl)⟩

/-! ## Claim C10: helper definitions and the fold invariant -/

theorem bestStep_spec (c0 : Frags) (sx : Nat) (isv b0 : Bool) (p1 : Nat × Nat)
    (acc : Option Nat × Int) (j : Nat) :
    bestStep c0 sx isv b0 p1 acc j =
      if mergeQual c0 sx isv b0 j ∧ mergeDist c0 isv b0 p1 j < acc.2
      then (some j, mergeDist c0 isv b0 p1 j) else acc := by
  unfold bestStep mergeQual mergeDist
  dsimp only
  by_cases hq : (mergeAxis isv (fragPoint (c0.getD j []) b0) - (sx : Int)).natAbs ≤ 1
  · rw [if_neg (by omega)]
    by_cases hd : ((mergeOff isv (fragPoint (c0.getD j []) b0) - mergeOff isv p1).natAbs : Int)
        < acc.2
    · rw [if_pos hd, if_pos ⟨hq, hd⟩]
    · rw [if_neg hd, if_neg (fun hc => hd hc.2)]
  · rw [if_pos (by omega), if_neg (fun hc => hq hc.1)]

theorem bestMatchFold_spec (c0 : Frags) (sx : Nat) (isv b0 : Bool) (p1 : Nat × Nat) :
    ∀ n : Nat,
      ((List.range n).foldl (bestStep c0 sx isv b0 p1) (none, 4)).2 ≤ 4
      ∧ (((List.range n).foldl (bestStep c0 sx isv b0 p1) (none, 4)).1 = none →
          ((List.range n).foldl (bestStep c0 sx isv b0 p1) (none, 4)).2 = 4
          ∧ ∀ k < n, mergeQual c0 sx isv b0 k → (4 : Int) ≤ mergeDist c0 isv b0 p1 k)
      ∧ (∀ j, ((List.range n).foldl (bestStep c0 sx isv b0 p1) (none, 4)).1 = some j →
          j < n ∧ mergeQual c0 sx isv b0 j
          ∧ mergeDist c0 isv b0 p1 j =
              ((List.range n).foldl (bestStep c0 sx isv b0 p1) (none, 4)).2
          ∧ ((List.range n).foldl (bestStep c0 sx isv b0 p1) (none, 4)).2 < 4
          ∧ ∀ k < n, mergeQual c0 sx isv b0 k →
              ((List.range n).foldl (bestStep c0 sx isv b0 p1) (none, 4)).2
                ≤ mergeDist c0 isv b0 p1 k) := by
  intro n
  induction n with
  | zero =>
    refine ⟨by norm_num, fun _ => ⟨rfl, fun k hk => by omega⟩, fun j hj => by simp at hj⟩
  | succ n ih =>
    obtain ⟨ihle, ihnone, ihsome⟩ := ih
    have hrange : List.range (n + 1) = List.range n ++ [n] := by
      simpa using List.range_succ n
    rw [hrange, List.foldl_append]
    set acc := (List.range n).foldl (bestStep c0 sx isv b0 p1) (none, 4) with hacc
    show (List.foldl (bestStep c0 sx isv b0 p1) acc [n]).2 ≤ 4 ∧ _ ∧ _
    have hstep : List.foldl (bestStep c0 sx isv b0 p1) acc [n] =
        bestStep c0 sx isv b0 p1 acc n := rfl
    rw [hstep, bestStep_spec]
    by_cases hupd : mergeQual c0 sx isv b0 n ∧ mergeDist c0 isv b0 p1 n < acc.2
    · rw [if_pos hupd]
      refine ⟨by omega, fun hnone => by simp at hnone, fun j hj => ?_⟩
      have hjn : j = n := by
        simp at hj
        omega
      subst hjn
      refine ⟨by omega, hupd.1, rfl, by omega, fun k hk hq => ?_⟩
      rcases Nat.lt_succ_iff_lt_or_eq.mp hk with hk' | hk'
      · rcases hcase : acc.1 with _ | j0
        · have := (ihnone hcase).2 k hk' hq
          omega
        · have := (ihsome j0 hcase).2.2.2.2 k hk' hq
          omega
      · subst hk'
        omega
    · rw [if_neg hupd]
      refine ⟨ihle, fun hnone => ?_, fun j hj => ?_⟩
      · obtain ⟨h4, hall⟩ := ihnone hnone
        refine ⟨h4, fun k hk hq => ?_⟩
        rcases Nat.lt_succ_iff_lt_or_eq.mp hk with hk' | hk'
        · exact hall k hk' hq
        · subst hk'
          rw [h4] at hupd
          have : ¬ mergeDist c0 isv b0 p1 k < 4 := fun hc => hupd ⟨hq, hc⟩
          omega
      · obtain ⟨hjn, hq, hde, hlt, hall⟩ := ihsome j hj
        refine ⟨by omega, hq, hde, hlt, fun k hk hqk => ?_⟩
        rcases Nat.lt_succ_iff_lt_or_eq.mp hk with hk' | hk'
        · exact hall k hk' hqk
        · subst hk'
          have : ¬ mergeDist c0 isv b0 p1 k < acc.2 := fun hc => hupd ⟨hqk, hc⟩
          omega

/-! ## Claim C10 -/

/-- C10: endpoint matching in the fragment merger.  A `c1` fragment is
merged only when the examined endpoint's seam-axis coordinate equals
the seam coordinate exactly (vertical direction compares y, horizontal
compares x); the merge succeeds exactly when moreover some `c0`
fragment qualifies, i.e. its candidate endpoint is within 1 of the seam
along the seam axis and its off-axis distance to the `c1` endpoint is
strictly below 4; and the chosen `c0` fragment minimises that off-axis
distance among all qualifying candidates. -/
theorem c10_merge_endpoint_rules (c0 c1 : Frags) (i sx : Nat) (isv : Bool)
    (mode : Nat) :
    ((merge_impl c0 c1 i sx isv mode).2.2 = true ↔
      (mergeAxis isv (fragPoint (c1.getD i []) (mergeB1 mode)) = (sx : Int)
        ∧ ∃ j < c0.length, mergeQual c0 sx isv (mergeB0 mode) j
            ∧ mergeDist c0 isv (mergeB0 mode)
                (fragPoint (c1.getD i []) (mergeB1 mode)) j < 4))
    ∧ (∀ j, (bestMatch c0 sx isv (mergeB0 mode)
          (fragPoint (c1.getD i []) (mergeB1 mode))).1 = some j →
        mergeQual c0 sx isv (mergeB0 mode) j
        ∧ mergeDist c0 isv (mergeB0 mode)
            (fragPoint (c1.getD i []) (mergeB1 mode)) j < 4
        ∧ ∀ k < c0.length, mergeQual c0 sx isv (mergeB0 mode) k →
            mergeDist c0 isv (mergeB0 mode)
                (fragPoint (c1.getD i []) (mergeB1 mode)) j
              ≤ mergeDist c0 isv (mergeB0 mode)
                  (fragPoint (c1.getD i []) (mergeB1 mode)) k) := by
  obtain ⟨hle, hnone, hsome⟩ :=
    bestMatchFold_spec c0 sx isv (mergeB0 mode)
      (fragPoint (c1.getD i []) (mergeB1 mode)) c0.length
  have hb : ∀ j, (bestMatch c0 sx isv (mergeB0 mode)
      (fragPoint (c1.getD i []) (mergeB1 mode))).1 = some j →
      mergeQual c0 sx isv (mergeB0 mode) j
      ∧ mergeDist c0 isv (mergeB0 mode)
          (fragPoint (c1.getD i []) (mergeB1 mode)) j < 4
      ∧ ∀ k < c0.length, mergeQual c0 sx isv (mergeB0 mode) k →
          mergeDist c0 isv (mergeB0 mode)
              (fragPoint (c1.getD i []) (mergeB1 mode)) j
            ≤ mergeDist c0 isv (mergeB0 mode)
                (fragPoint (c1.getD i []) (mergeB1 mode)) k := by
    intro j hj
    obtain ⟨hjn, hq, hde, hlt, hall⟩ := hsome j hj
    refine ⟨hq, by omega, fun k hk hqk => ?_⟩
    have := hall k hk hqk
    omega
  refine ⟨?_, hb⟩
  unfold merge_impl
  dsimp only
  by_cases hax : (mergeAxis isv (fragPoint (c1.getD i []) (mergeB1 mode))
      - (sx : Int)).natAbs > 0
  · rw [if_pos hax]
    constructor
    · intro hfalse
      simp at hfalse
    · rintro ⟨haxeq, _⟩
      omega
  · rw [if_neg hax]
    have haxeq : mergeAxis isv (fragPoint (c1.getD i []) (mergeB1 mode)) = (sx : Int) := by
      omega
    rcases hbm : (bestMatch c0 sx isv (mergeB0 mode)
        (fragPoint (c1.getD i []) (mergeB1 mode))).1 with _ | j
    · refine iff_of_false (by simp) ?_
      rintro ⟨_, j, hjlen, hq, hd⟩
      have := (hnone hbm).2 j hjlen hq
      omega
    · obtain ⟨hjl, hq, hde, hlt, hmin⟩ := hsome j hbm
      exact iff_of_true rfl ⟨haxeq, j, hjl, hq, by omega⟩

theorem c10_merge_endpoint_rules_witness :
    (merge_impl [[(0, 0), (5, 3)]] [[(5, 4), (9, 9)]] 0 4 true 1).2.2 = true
    ∧ mergeQual [[(0, 0), (5, 3)]] 4 true (mergeB0 1) 0
    ∧ mergeDist [[(0, 0), (5, 3)]] true (mergeB0 1)
        (fragPoint ([[(5, 4), (9, 9)]].getD 0 []) (mergeB1 1)) 0 < 4 := by
  have h := (c10_merge_endpoint_rules [[(0, 0), (5, 3)]] [[(5, 4), (9, 9)]]
    0 4 true 1).2 0 (by decide)
  exact ⟨by decide, h.1, h.2.1⟩
